import Mathlib

/-!
Verification of the Superior RAG core (retriever, reflection engine, document
processor, memory manager) against its natural-language specification.

The Python modules are shallowly embedded: dictionaries become records with
optional fields, floats become rationals, SQL-backed state becomes explicit
lists of rows, and possibly non-terminating loops take an explicit fuel
parameter (returning none when the fuel runs out; a separate lemma shows the
relevant loops either terminate within the provided fuel or return none for
every fuel).
-/

namespace RagSpec

/-- A loosely typed Python value, as stored in payload / metadata dicts.
Only the shapes that actually occur in the embedded code are represented. -/
inductive PyVal where
  | str (s : String)
  | int (i : Int)
  | pynone
  deriving DecidableEq, Repr

/-- Python truthiness for the values above: None and empty string and 0 are
falsy, everything else is truthy. -/
def pyTruthy : PyVal → Bool
  | .str s => s ≠ ""
  | .int i => i ≠ 0
  | .pynone => false

/-- Rendering of a value inside an f-string, mirroring str() in Python. -/
def pyStr : PyVal → String
  | .str s => s
  | .int i => toString i
  | .pynone => "None"

/-- dict.get(k) on an association list: missing keys read as None. -/
def pyGet (l : List (String × PyVal)) (k : String) : PyVal :=
  (l.lookup k).getD .pynone

/-- Python `a or b or 0` over two optional floats (None and 0 are falsy). -/
def pyOrQ (a b : Option ℚ) : ℚ :=
  match a with
  | some q => if q = 0 then (match b with
      | some r => if r = 0 then 0 else r
      | none => 0) else q
  | none => match b with
      | some r => if r = 0 then 0 else r
      | none => 0

/-- A retrieval result dictionary (src/retrieval/retriever.py and
src/core/reflection_engine.py pass these around as plain dicts; every key
that the embedded code reads or writes is a field here, `none` / `[]`
standing for an absent key). -/
structure ResultDict where
  id : Option String := none
  document_id : Option PyVal := none
  chunk_index : Option PyVal := none
  score : Option ℚ := none
  vector_score : Option ℚ := none
  keyword_score : Option ℚ := none
  combined_score : Option ℚ := none
  content : Option String := none
  metadata : List (String × PyVal) := []
  payload : Option (List (String × PyVal)) := none
  source : Option String := none
  queries : List String := []
  reflection_score : Option ℚ := none
  final_score : Option ℚ := none
  deriving DecidableEq, Repr

/-- Insert or overwrite a key in an insertion-ordered dict, keeping the
original position on overwrite (CPython dict semantics). -/
def upsertAssoc (k : String) (v : ResultDict) :
    List (String × ResultDict) → List (String × ResultDict)
  | [] => [(k, v)]
  | (k1, v1) :: rest =>
      if k1 = k then (k1, v) :: rest else (k1, v1) :: upsertAssoc k v rest

/-- Update the value at a key in place (no effect when the key is absent). -/
def updateAssoc (k : String) (f : ResultDict → ResultDict) :
    List (String × ResultDict) → List (String × ResultDict)
  | [] => []
  | (k1, v1) :: rest =>
      if k1 = k then (k1, f v1) :: rest else (k1, v1) :: updateAssoc k f rest

/-- Descending order by a rational key, as a decidable total preorder. -/
def keyGe {α : Type} (f : α → ℚ) (a b : α) : Prop := f b ≤ f a

instance {α : Type} (f : α → ℚ) : DecidableRel (keyGe f) :=
  fun a b => inferInstanceAs (Decidable (f b ≤ f a))

instance {α : Type} (f : α → ℚ) : IsTotal α (keyGe f) :=
  ⟨fun a b => le_total (f b) (f a)⟩

instance {α : Type} (f : α → ℚ) : IsTrans α (keyGe f) :=
  ⟨fun _ _ _ h1 h2 => le_trans h2 h1⟩

/-- Stable descending sort by a rational key: list.sort(key=f, reverse=True).
CPython uses a stable sort and reverse=True preserves the original order of
tied elements; insertionSort with the total preorder keyGe f computes exactly
that stable descending ordering. -/
def sortDescBy {α : Type} (f : α → ℚ) (l : List α) : List α :=
  l.insertionSort (keyGe f)

/-! ## Retriever._merge_results (retriever.py lines 228-298)

The Python dict is keyed by the f-string "{doc_id}:{chunk_index}"; we build
exactly that string key with pyStr, so key collisions between distinct
(document_id, chunk_index) pairs are reproduced faithfully. -/

/-- The composite dictionary key used by both merge routines. -/
def mergeKey (doc ci : PyVal) : String := pyStr doc ++ ":" ++ pyStr ci

/-- Fresh merged entry built from a vector-search result. -/
def mkVecEntry (doc ci : PyVal) (r : ResultDict) : ResultDict :=
  { id := some (mergeKey doc ci)
    document_id := some doc
    chunk_index := some ci
    vector_score := some (r.score.getD 0)
    keyword_score := some 0
    combined_score := some (r.score.getD 0)
    payload := some (r.payload.getD []) }

/-- Fresh merged entry built from a keyword-search result. -/
def mkKwEntry (doc ci : PyVal) (r : ResultDict) : ResultDict :=
  { id := some (mergeKey doc ci)
    document_id := some doc
    chunk_index := some ci
    vector_score := some 0
    keyword_score := some (r.score.getD 0)
    combined_score := some (3/10 * r.score.getD 0)
    payload := some (r.payload.getD []) }

/-- The guard `not (doc_id and chunk_index is not None)` inverted: proceed
only when doc_id is truthy and chunk_index is not None. -/
def keyOk (doc ci : PyVal) : Bool := pyTruthy doc && ci != PyVal.pynone

/-- Payload document_id of a vector result (payload missing reads as an
empty dict, missing keys read as None). -/
def vecDoc (r : ResultDict) : PyVal := pyGet (r.payload.getD []) "document_id"

/-- Payload chunk_index of a vector result. -/
def vecCi (r : ResultDict) : PyVal := pyGet (r.payload.getD []) "chunk_index"

/-- The keyword-score update applied when a keyword result hits an existing
merged entry: set keyword_score and recombine 0.7 * vector + 0.3 * keyword. -/
def kwUpdate (ks : ℚ) (e : ResultDict) : ResultDict :=
  { e with keyword_score := some ks
           combined_score := some (7/10 * e.vector_score.getD 0 + 3/10 * ks) }

/-- One step of the vector-result loop of _merge_results. -/
def mergeVecStep (acc : List (String × ResultDict)) (r : ResultDict) :
    List (String × ResultDict) :=
  if keyOk (vecDoc r) (vecCi r) then
    upsertAssoc (mergeKey (vecDoc r) (vecCi r)) (mkVecEntry (vecDoc r) (vecCi r) r) acc
  else acc

/-- One step of the keyword-result loop of _merge_results. -/
def mergeKwStep (acc : List (String × ResultDict)) (r : ResultDict) :
    List (String × ResultDict) :=
  let doc := r.document_id.getD .pynone
  let ci := r.chunk_index.getD .pynone
  if keyOk doc ci then
    let key := mergeKey doc ci
    let ks := r.score.getD 0
    if (acc.lookup key).isSome then
      updateAssoc key (kwUpdate ks) acc
    else acc ++ [(key, mkKwEntry doc ci r)]
  else acc

/-- Retriever._merge_results: merge vector and keyword results keyed by
"{doc_id}:{chunk_index}", then stable-sort descending by combined_score. -/
def mergeResults (vector_results keyword_results : List ResultDict) :
    List ResultDict :=
  let merged := keyword_results.foldl mergeKwStep
    (vector_results.foldl mergeVecStep [])
  sortDescBy (fun x => x.combined_score.getD 0) (merged.map Prod.snd)

/-! ## Retriever._process_results (retriever.py lines 468-513) -/

/-- Post-processing of one raw result into a clean result object. -/
def processOne (r : ResultDict) : ResultDict :=
  let base : ResultDict :=
    { id := r.id
      document_id := r.document_id
      chunk_index := r.chunk_index
      score := some (pyOrQ r.combined_score r.vector_score) }
  let base := match r.content with
    | some c => { base with content := some c }
    | none => base
  let md := if r.metadata ≠ [] then r.metadata else (r.payload.getD [])
  let md2 := md.filter (fun kv =>
    kv.1 ≠ "document_id" && kv.1 ≠ "chunk_index" && kv.1 ≠ "id")
  if md2 ≠ [] then { base with metadata := md2 } else base

/-- Retriever._process_results. -/
def processResults (l : List ResultDict) : List ResultDict :=
  l.map processOne

/-- The pure data path of Retriever.retrieve after vector/keyword search:
merge when hybrid, then post-process.  Cache lookup, reranking (disabled by
default) and chunk-content hydration are collaborator calls; content
hydration only fills the content/metadata fields and never touches scores,
so it is omitted from this score-level embedding. -/
def retrieveCore (use_hybrid : Bool)
    (vector_results keyword_results : List ResultDict) : List ResultDict :=
  processResults
    (if use_hybrid then mergeResults vector_results keyword_results
     else vector_results)

/-! ## Claim C9: the hybrid merge silently drops invalid candidates -/

/-- Entry e of the merged output originates from vector candidate r: r has a
truthy payload document_id and a non-None payload chunk_index, and e carries
exactly that pair. -/
def vecOrigin (r e : ResultDict) : Prop :=
  pyTruthy (pyGet (r.payload.getD []) "document_id") = true ∧
  pyGet (r.payload.getD []) "chunk_index" ≠ PyVal.pynone ∧
  e.document_id = some (pyGet (r.payload.getD []) "document_id") ∧
  e.chunk_index = some (pyGet (r.payload.getD []) "chunk_index")

/-- Entry e of the merged output originates from keyword candidate r: r has a
truthy top-level document_id and non-None chunk_index carried into e. -/
def kwOrigin (r e : ResultDict) : Prop :=
  pyTruthy (r.document_id.getD .pynone) = true ∧
  r.chunk_index.getD .pynone ≠ PyVal.pynone ∧
  e.document_id = some (r.document_id.getD .pynone) ∧
  e.chunk_index = some (r.chunk_index.getD .pynone)

lemma keyOk_iff {doc ci : PyVal} :
    keyOk doc ci = true ↔ pyTruthy doc = true ∧ ci ≠ PyVal.pynone := by
  simp [keyOk]

lemma mem_upsertAssoc {k : String} {v : ResultDict} {x : String × ResultDict} :
    ∀ {l : List (String × ResultDict)},
      x ∈ upsertAssoc k v l → x = (k, v) ∨ x ∈ l := by
  intro l
  induction l with
  | nil => intro h; simpa [upsertAssoc] using h
  | cons kv rest ih =>
    obtain ⟨k1, v1⟩ := kv
    intro h
    rw [upsertAssoc] at h
    by_cases hk : k1 = k
    · rw [if_pos hk] at h
      rcases List.mem_cons.mp h with h | h
      · left; rw [h, hk]
      · right; exact List.mem_cons_of_mem _ h
    · rw [if_neg hk] at h
      rcases List.mem_cons.mp h with h | h
      · right; rw [h]; exact List.mem_cons_self _ _
      · rcases ih h with h | h
        · left; exact h
        · right; exact List.mem_cons_of_mem _ h

lemma mem_updateAssoc {k : String} {f : ResultDict → ResultDict}
    {x : String × ResultDict} :
    ∀ {l : List (String × ResultDict)},
      x ∈ updateAssoc k f l → x ∈ l ∨ ∃ y ∈ l, x = (y.1, f y.2) := by
  intro l
  induction l with
  | nil => intro h; simp [updateAssoc] at h
  | cons kv rest ih =>
    obtain ⟨k1, v1⟩ := kv
    intro h
    rw [updateAssoc] at h
    by_cases hk : k1 = k
    · rw [if_pos hk] at h
      rcases List.mem_cons.mp h with h | h
      · right; exact ⟨(k1, v1), List.mem_cons_self _ _, by rw [h]⟩
      · left; exact List.mem_cons_of_mem _ h
    · rw [if_neg hk] at h
      rcases List.mem_cons.mp h with h | h
      · left; rw [h]; exact List.mem_cons_self _ _
      · rcases ih h with h | ⟨y, hy, hxy⟩
        · left; exact List.mem_cons_of_mem _ h
        · right; exact ⟨y, List.mem_cons_of_mem _ hy, hxy⟩

section MergeInvariant

variable (vr kr : List ResultDict)

/-- Invariant carried through both merge loops. -/
def mergedFromValid (e : ResultDict) : Prop :=
  (∃ r ∈ vr, vecOrigin r e) ∨ (∃ r ∈ kr, kwOrigin r e)

lemma vecFold_inv :
    ∀ (l : List ResultDict) (acc : List (String × ResultDict)), l ⊆ vr →
      (∀ kv ∈ acc, mergedFromValid vr kr kv.2) →
      ∀ kv ∈ l.foldl mergeVecStep acc, mergedFromValid vr kr kv.2 := by
  intro l
  induction l with
  | nil => intro acc _ hacc kv hkv; exact hacc kv hkv
  | cons r rest ih =>
    intro acc hsub hacc kv hkv
    rw [List.foldl_cons] at hkv
    refine ih _ (fun x hx => hsub (List.mem_cons_of_mem _ hx)) ?_ kv hkv
    intro kv2 hkv2
    rw [mergeVecStep] at hkv2
    by_cases hvalid : keyOk (vecDoc r) (vecCi r) = true
    · rw [if_pos hvalid] at hkv2
      rcases mem_upsertAssoc hkv2 with h | h
      · left
        obtain ⟨h1, h2⟩ := keyOk_iff.mp hvalid
        exact ⟨r, hsub (List.mem_cons_self _ _), h1, h2, by rw [h]; rfl, by rw [h]; rfl⟩
      · exact hacc _ h
    · rw [if_neg hvalid] at hkv2
      exact hacc _ hkv2

lemma kwFold_inv :
    ∀ (l : List ResultDict) (acc : List (String × ResultDict)), l ⊆ kr →
      (∀ kv ∈ acc, mergedFromValid vr kr kv.2) →
      ∀ kv ∈ l.foldl mergeKwStep acc, mergedFromValid vr kr kv.2 := by
  intro l
  induction l with
  | nil => intro acc _ hacc kv hkv; exact hacc kv hkv
  | cons r rest ih =>
    intro acc hsub hacc kv hkv
    rw [List.foldl_cons] at hkv
    refine ih _ (fun x hx => hsub (List.mem_cons_of_mem _ hx)) ?_ kv hkv
    intro kv2 hkv2
    rw [mergeKwStep] at hkv2
    simp only [] at hkv2
    by_cases hvalid : keyOk (r.document_id.getD .pynone) (r.chunk_index.getD .pynone) = true
    · rw [if_pos hvalid] at hkv2
      by_cases hmem : (acc.lookup (mergeKey (r.document_id.getD .pynone)
          (r.chunk_index.getD .pynone))).isSome
      · rw [if_pos hmem] at hkv2
        rcases mem_updateAssoc hkv2 with h | ⟨y, hy, hxy⟩
        · exact hacc _ h
        · have hP := hacc _ hy
          rw [hxy]
          rcases hP with ⟨r2, hr2, h1, h2, h3, h4⟩ | ⟨r2, hr2, h1, h2, h3, h4⟩
          · exact Or.inl ⟨r2, hr2, h1, h2, h3, h4⟩
          · exact Or.inr ⟨r2, hr2, h1, h2, h3, h4⟩
      · rw [if_neg hmem] at hkv2
        rcases List.mem_append.mp hkv2 with h | h
        · exact hacc _ h
        · right
          obtain ⟨h1, h2⟩ := keyOk_iff.mp hvalid
          have hx : kv2 = _ := List.mem_singleton.mp h
          exact ⟨r, hsub (List.mem_cons_self _ _), h1, h2, by rw [hx]; rfl, by rw [hx]; rfl⟩
    · rw [if_neg hvalid] at hkv2
      exact hacc _ hkv2

end MergeInvariant

/-- C9: in the hybrid merge of retrieve, any vector or keyword candidate whose
document id is missing or falsy, or whose chunk index is None, is silently
dropped: every entry of the merged output originates from a candidate with a
truthy document_id and a non-None chunk_index. -/
theorem c9_merge_output_originates_from_valid_candidates
    (vr kr : List ResultDict) (e : ResultDict)
    (he : e ∈ mergeResults vr kr) :
    (∃ r ∈ vr, vecOrigin r e) ∨ (∃ r ∈ kr, kwOrigin r e) := by
  rw [mergeResults, sortDescBy] at he
  rw [List.mem_insertionSort] at he
  rcases List.mem_map.mp he with ⟨kv, hkv, hkve⟩
  have := kwFold_inv vr kr kr _ (fun x hx => hx)
    (vecFold_inv vr kr vr [] (fun x hx => hx) (by intro kv h; simp at h))
    kv hkv
  rw [hkve] at this
  exact this

/-- Concrete vector-result list for the C9 witness: one valid candidate. -/
def vrC9 : List ResultDict :=
  [{ payload := some [("document_id", PyVal.str "d1"), ("chunk_index", PyVal.int 0)],
     score := some (9/10) }]

/-- Concrete keyword-result list for the C9 witness: its falsy document id
makes the merge drop it. -/
def krC9 : List ResultDict :=
  [{ document_id := some (PyVal.str ""), chunk_index := some (PyVal.int 3),
     score := some (1/2) }]

/-- The single entry the merge produces on vrC9 / krC9. -/
def eC9 : ResultDict :=
  mkVecEntry (PyVal.str "d1") (PyVal.int 0)
    { payload := some [("document_id", PyVal.str "d1"), ("chunk_index", PyVal.int 0)],
      score := some (9/10) }

/-- Witness for C9 at a concrete input: the merged output of one valid vector
candidate and one invalid keyword candidate is the single vector entry, and
the theorem applies to it. -/
theorem c9_witness :
    eC9 ∈ mergeResults vrC9 krC9 ∧
      ((∃ r ∈ vrC9, vecOrigin r eC9) ∨ (∃ r ∈ krC9, kwOrigin r eC9)) := by
  have hmem : eC9 ∈ mergeResults vrC9 krC9 := by
    rw [show mergeResults vrC9 krC9 = [eC9] from rfl]
    exact List.mem_singleton.mpr rfl
  exact ⟨hmem, c9_merge_output_originates_from_valid_candidates vrC9 krC9 eC9 hmem⟩

/-! ## Claim C6: retrieve with use_hybrid = false loses the vector scores -/

/-- The two vector candidates of the claim, in the shape the repository's own
vector store (MockVectorStore.search_vectors) returns: top-level document_id,
chunk_index and score keys and no payload key. -/
def vrC6 : List ResultDict :=
  [ { document_id := some (.str "d1"), chunk_index := some (.int 0),
      score := some (9/10), content := some "Result one" },
    { document_id := some (.str "d1"), chunk_index := some (.int 1),
      score := some (4/10), content := some "Result two" } ]

/-- C6 (code bug evidence): retrieve with use_hybrid = false feeds the raw
vector results straight into _process_results, which computes the output
score from the combined_score / vector_score keys; raw vector results carry
neither, so both candidates come back with score 0 instead of their vector
scores 0.9 and 0.4 that the claim requires. -/
theorem c6_nonhybrid_returns_zero_scores :
    (retrieveCore false vrC6 []).map (fun r => r.score) = [some 0, some 0] ∧
    (retrieveCore false vrC6 []).map (fun r => r.score) ≠
      [some (9/10), some (4/10)] := by
  have h : (retrieveCore false vrC6 []).map (fun r => r.score) = [some 0, some 0] := rfl
  refine ⟨h, ?_⟩
  rw [h]
  norm_num

/-! ## DocumentProcessor._create_fixed_chunks (document_processor.py 401-449)

Character positions are Int, matching Python int arithmetic (start can in
principle go negative); slice and rfind indices are adjusted the way Python
adjusts slice bounds.  The while-loop takes explicit fuel and returns none
when the fuel is exhausted; the loop advances start by at least one character
per iteration in the terminating regime, so any fuel above len(text) is
enough there, while the non-terminating inputs return none for every fuel. -/

/-- Clamp a Python slice index into [0, n] (negative indices count from the
end, everything is clamped to the string bounds). -/
def pyAdjust (n : Nat) (i : Int) : Nat :=
  if i < 0 then (n + i).toNat else min i.toNat n

/-- Python s[a:b] on a list of characters. -/
def pySlice (s : List Char) (a b : Int) : List Char :=
  (s.take (pyAdjust s.length b)).drop (pyAdjust s.length a)

/-- Python s.rfind(sub, a, b): the largest position p in [a, b - len(sub)]
where sub occurs, or -1. -/
def pyRfind (s sub : List Char) (a b : Int) : Int :=
  ((((List.range (pyAdjust s.length b + 1)).filter
      (fun p => decide (pyAdjust s.length a ≤ p) &&
        decide (p + sub.length ≤ pyAdjust s.length b) &&
        ((s.drop p).take sub.length == sub))).getLast?).map
    (fun p => (p : Int))).getD (-1)

/-- One chunk record: text payload and character span [start_char, end_char). -/
structure Chunk where
  text : List Char
  start_char : Int
  end_char : Int
  deriving DecidableEq, Repr

/-- End position of the window starting at start: start + chunk_size, pulled
back to just after the last ". " sentence boundary when that boundary is
still past chunk_size // 2 into the window, or the end of text. -/
def chunkEnd (text : List Char) (cs start : Int) : Int :=
  let end0 := start + cs
  if end0 < (text.length : Int) then
    let se := pyRfind text ['.', ' '] start end0 + 1
    if se > start + cs.fdiv 2 then se else end0
  else (text.length : Int)

/-- The early-exit test after updating start: a trailing window smaller than
chunk_size // 2 is dropped. -/
def breakCond (text : List Char) (cs s2 : Int) : Bool :=
  decide (s2 + cs > (text.length : Int)) &&
    decide ((text.length : Int) - s2 < cs.fdiv 2)

/-- The while-loop of _create_fixed_chunks with explicit fuel. -/
def fixedLoop (text : List Char) (cs ov : Int) : Nat → Int → Option (List Chunk)
  | 0, _ => none
  | n + 1, start =>
    if start < (text.length : Int) then
      let e := chunkEnd text cs start
      let c : Chunk := ⟨pySlice text start e, start, e⟩
      if breakCond text cs (e - ov) then some [c]
      else (fixedLoop text cs ov n (e - ov)).map (c :: ·)
    else some []

/-- DocumentProcessor._create_fixed_chunks.  A text no longer than chunk_size
is returned as a single chunk (note: this includes the empty text, which
yields one empty chunk, not zero chunks). -/
def createFixedChunks (fuel : Nat) (text : List Char) (cs ov : Int) :
    Option (List Chunk) :=
  if (text.length : Int) ≤ cs then some [⟨text, 0, (text.length : Int)⟩]
  else fixedLoop text cs ov fuel 0

/-- The fixed-size segmentation loop runs forever on this input: the claim
quantifier over every fuel expresses genuine non-termination of the source
loop. -/
def fixedChunksDiverge (text : List Char) (cs ov : Int) : Prop :=
  ∀ n : Nat, createFixedChunks n text cs ov = none

/-! Support lemmas for the fixed-chunk loop. -/

lemma pyAdjust_cast {n : Nat} {i : Int} (h0 : 0 ≤ i) (h1 : i ≤ (n : Int)) :
    ((pyAdjust n i : Nat) : Int) = i := by
  rw [pyAdjust, if_neg (not_lt.mpr h0)]
  omega

lemma pyRfind_spec (s sub : List Char) (a b : Int) :
    pyRfind s sub a b = -1 ∨
      (0 ≤ pyRfind s sub a b ∧
        pyRfind s sub a b + sub.length ≤ ((pyAdjust s.length b : Nat) : Int)) := by
  rw [pyRfind]
  rcases hlast : ((List.range (pyAdjust s.length b + 1)).filter
      (fun p => decide (pyAdjust s.length a ≤ p) &&
        decide (p + sub.length ≤ pyAdjust s.length b) &&
        ((s.drop p).take sub.length == sub))).getLast? with _ | p
  · left; rfl
  · right
    have hmem : p ∈ (List.range (pyAdjust s.length b + 1)).filter
        (fun p => decide (pyAdjust s.length a ≤ p) &&
          decide (p + sub.length ≤ pyAdjust s.length b) &&
          ((s.drop p).take sub.length == sub)) := by
      rw [List.getLast?_eq_getElem?] at hlast
      exact List.getElem?_mem hlast
    have hp := (List.mem_filter.mp hmem).2
    simp only [Bool.and_eq_true, decide_eq_true_eq] at hp
    have hval := hp.1.2
    constructor
    · change (0 : Int) ≤ (p : Int)
      omega
    · change (p : Int) + (sub.length : Int) ≤ ((pyAdjust s.length b : Nat) : Int)
      omega

lemma chunkEnd_spec {text : List Char} {cs start : Int}
    (hcs : 0 < cs) (hstart : 0 ≤ start) (hlt : start < (text.length : Int)) :
    start < chunkEnd text cs start ∧
    chunkEnd text cs start ≤ (text.length : Int) ∧
    (chunkEnd text cs start = (text.length : Int) ∨
      start + cs.fdiv 2 < chunkEnd text cs start) := by
  have hfdiv0 : 0 ≤ cs.fdiv 2 := by
    rw [Int.fdiv_eq_ediv _ (by norm_num)]; omega
  have hfdivlt : cs.fdiv 2 < cs := by
    rw [Int.fdiv_eq_ediv _ (by norm_num)]; omega
  rw [chunkEnd]
  by_cases h0 : start + cs < (text.length : Int)
  · rw [if_pos h0]
    by_cases hse : pyRfind text ['.', ' '] start (start + cs) + 1 > start + cs.fdiv 2
    · rw [if_pos hse]
      rcases pyRfind_spec text ['.', ' '] start (start + cs) with hrf | ⟨hrf0, hrfle⟩
      · rw [hrf] at hse; omega
      · have hadj : ((pyAdjust text.length (start + cs) : Nat) : Int) = start + cs :=
          pyAdjust_cast (by omega) (by omega)
        rw [hadj] at hrfle
        simp only [List.length_cons, List.length_nil] at hrfle
        refine ⟨by omega, by omega, Or.inr hse⟩
    · rw [if_neg hse]
      exact ⟨by omega, by omega, Or.inr (by omega)⟩
  · rw [if_neg h0]
    exact ⟨hlt, le_refl _, Or.inl rfl⟩

section FixedLoopInv

variable (text : List Char) (cs ov : Int)

/-- Loop invariant for the terminating regime of _create_fixed_chunks:
overlap 0, or overlap strictly below chunk_size // 2. -/
lemma fixedLoop_spec (hcs : 0 < cs) (hov : 0 ≤ ov)
    (hreg : ov = 0 ∨ 2 * ov + 1 < cs) :
    ∀ (n : Nat) (start : Int), 0 ≤ start → start ≤ (text.length : Int) →
      ((text.length : Int) - start).toNat < n →
      ∃ chunks E, fixedLoop text cs ov n start = some chunks ∧
        start ≤ E ∧ E ≤ (text.length : Int) ∧
        (∀ p : Int, start ≤ p → p < E →
          ∃ c ∈ chunks, c.start_char ≤ p ∧ p < c.end_char) ∧
        (E = (text.length : Int) ∨ (text.length : Int) - E < cs.fdiv 2) ∧
        chunks.Pairwise (fun a b => a.start_char ≤ b.start_char) ∧
        (∀ c ∈ chunks, start ≤ c.start_char) := by
  have hfdiv : ov = 0 ∨ ov < cs.fdiv 2 := by
    rcases hreg with h | h
    · exact Or.inl h
    · right; rw [Int.fdiv_eq_ediv _ (by norm_num)]; omega
  have hovcs : ov < cs := by
    rcases hreg with h | h <;> omega
  intro n
  induction n with
  | zero => intro start _ _ hfuel; omega
  | succ n ih =>
    intro start hstart0 hstartL hfuel
    by_cases hlt : start < (text.length : Int)
    · have hes := chunkEnd_spec hcs hstart0 hlt
      set e := chunkEnd text cs start with hedef
      set L := (text.length : Int)
      rw [fixedLoop, if_pos hlt]
      by_cases hbr : breakCond text cs (e - ov) = true
      · rw [if_pos hbr]
        refine ⟨[⟨pySlice text start e, start, e⟩], e, rfl, le_of_lt hes.1, hes.2.1,
          ?_, ?_, ?_, ?_⟩
        · intro p hp1 hp2
          exact ⟨_, List.mem_singleton.mpr rfl, hp1, hp2⟩
        · right
          have hb2 := (Bool.and_eq_true _ _).mp hbr
          have : L - (e - ov) < cs.fdiv 2 := of_decide_eq_true hb2.2
          omega
        · exact List.pairwise_singleton _ _
        · intro c hc
          rw [List.mem_singleton.mp hc]
      · rw [if_neg hbr]
        -- progress: the next start is at least start + 1, or past the end
        have hprog : start + 1 ≤ e - ov ∨ L ≤ e - ov := by
          rcases hes.2.2 with heL | hefd
          · rcases hfdiv with h | h
            · right; omega
            · -- overlap ≥ 1 here would force the break condition to hold
              exfalso
              apply hbr
              rw [breakCond]
              have h1 : e - ov + cs > L := by omega
              have h2 : L - (e - ov) < cs.fdiv 2 := by omega
              rw [decide_eq_true h1, decide_eq_true h2]
              rfl
          · rcases hfdiv with h | h
            · left; omega
            · left; omega
        by_cases hend : e - ov < L
        · have hstep : start + 1 ≤ e - ov := by omega
          obtain ⟨chunks2, E2, hloop2, hE2a, hE2b, hcov2, hdisj2, hpw2, hst2⟩ :=
            ih (e - ov) (by omega) (by omega) (by omega)
          refine ⟨⟨pySlice text start e, start, e⟩ :: chunks2, max e E2, ?_,
            ?_, ?_, ?_, ?_, ?_, ?_⟩
          · rw [hloop2]; rfl
          · have := hes.1; simp only [le_max_iff]; left; omega
          · simp only [max_le_iff]; exact ⟨hes.2.1, hE2b⟩
          · intro p hp1 hp2
            by_cases hpe : p < e
            · exact ⟨_, List.mem_cons_self _ _, hp1, hpe⟩
            · have : p < E2 := by
                rcases max_cases e E2 with ⟨hm, _⟩ | ⟨hm, _⟩ <;> omega
              obtain ⟨c2, hc2, hc2a, hc2b⟩ := hcov2 p (by omega) this
              exact ⟨c2, List.mem_cons_of_mem _ hc2, hc2a, hc2b⟩
          · rcases hdisj2 with h | h
            · left; rw [h]; exact max_eq_right hes.2.1
            · right
              have : L - max e E2 ≤ L - E2 := by
                have := le_max_right e E2; omega
              omega
          · rw [List.pairwise_cons]
            refine ⟨?_, hpw2⟩
            intro c2 hc2
            have := hst2 c2 hc2
            simp only []
            omega
          · intro c hc
            rcases List.mem_cons.mp hc with h | h
            · rw [h]
            · have := hst2 c h; omega
        · -- the new start is at or past the end of text: the recursive call
          -- immediately returns the empty list
          obtain ⟨chunks2, E2, hloop2, hE2a, hE2b, hcov2, hdisj2, hpw2, hst2⟩ :=
            ih (e - ov) (by omega) (by omega) (by omega)
          refine ⟨⟨pySlice text start e, start, e⟩ :: chunks2, max e E2, ?_,
            ?_, ?_, ?_, ?_, ?_, ?_⟩
          · rw [hloop2]; rfl
          · have := hes.1; simp only [le_max_iff]; left; omega
          · simp only [max_le_iff]; exact ⟨hes.2.1, hE2b⟩
          · intro p hp1 hp2
            by_cases hpe : p < e
            · exact ⟨_, List.mem_cons_self _ _, hp1, hpe⟩
            · have : p < E2 := by
                rcases max_cases e E2 with ⟨hm, _⟩ | ⟨hm, _⟩ <;> omega
              obtain ⟨c2, hc2, hc2a, hc2b⟩ := hcov2 p (by omega) this
              exact ⟨c2, List.mem_cons_of_mem _ hc2, hc2a, hc2b⟩
          · rcases hdisj2 with h | h
            · left
              have : E2 ≤ max e E2 := le_max_right e E2
              have : max e E2 ≤ L := by
                simp only [max_le_iff]; exact ⟨hes.2.1, hE2b⟩
              omega
            · right
              have := le_max_right e E2; omega
          · rw [List.pairwise_cons]
            refine ⟨?_, hpw2⟩
            intro c2 hc2
            have := hst2 c2 hc2
            simp only []
            omega
          · intro c hc
            rcases List.mem_cons.mp hc with h | h
            · rw [h]
            · have := hst2 c h; omega
    · rw [fixedLoop, if_neg hlt]
      refine ⟨[], (text.length : Int), rfl, by omega, le_refl _, ?_,
        Or.inl rfl, List.Pairwise.nil, by intro c hc; simp at hc⟩
      intro p hp1 hp2
      omega

end FixedLoopInv

/-- C3 (amended): for every text, every chunkSize > 0 and every overlap that
is zero or strictly below chunkSize // 2, fixed-mode segmentation terminates
and produces chunks whose startChar values are non-decreasing and whose
spans [startChar, endChar) jointly cover an initial segment [0, E) of the
text, where either E = len(text) or the dropped tail is shorter than
chunkSize // 2 (the documented trailing-truncation case).  For overlaps at
or above chunkSize // 2 the loop need not terminate (see the
counterexample). -/
theorem c3_fixed_chunks_cover (text : List Char) (cs ov : Int) (fuel : Nat)
    (hcs : 0 < cs) (hov : 0 ≤ ov) (hreg : ov = 0 ∨ 2 * ov + 1 < cs)
    (hfuel : text.length < fuel) :
    ∃ chunks E,
      createFixedChunks fuel text cs ov = some chunks ∧
      chunks.Pairwise (fun a b => a.start_char ≤ b.start_char) ∧
      0 ≤ E ∧ E ≤ (text.length : Int) ∧
      (∀ p : Int, 0 ≤ p → p < E →
        ∃ c ∈ chunks, c.start_char ≤ p ∧ p < c.end_char) ∧
      (E = (text.length : Int) ∨ (text.length : Int) - E < cs.fdiv 2) := by
  rw [createFixedChunks]
  by_cases hsmall : (text.length : Int) ≤ cs
  · rw [if_pos hsmall]
    refine ⟨[⟨text, 0, (text.length : Int)⟩], (text.length : Int), rfl,
      List.pairwise_singleton _ _, by omega, le_refl _, ?_, Or.inl rfl⟩
    intro p hp1 hp2
    exact ⟨_, List.mem_singleton.mpr rfl, hp1, hp2⟩
  · rw [if_neg hsmall]
    obtain ⟨chunks, E, hloop, hEa, hEb, hcov, hdisj, hpw, _⟩ :=
      fixedLoop_spec text cs ov hcs hov hreg fuel 0 (le_refl _) (by omega)
        (by omega)
    exact ⟨chunks, E, hloop, hpw, hEa, hEb, fun p hp1 hp2 => hcov p hp1 hp2, hdisj⟩

/-- Witness for C3: chunkSize 5, overlap 1 on a 12-character text satisfies
the hypotheses and the amended theorem applies. -/
theorem c3_witness :
    (0 : Int) < 5 ∧ (0 : Int) ≤ 1 ∧ ((1 : Int) = 0 ∨ 2 * 1 + 1 < (5 : Int)) ∧
      (List.replicate 12 'a').length < 13 ∧
      (∃ chunks E,
        createFixedChunks 13 (List.replicate 12 'a') 5 1 = some chunks ∧
        chunks.Pairwise (fun a b => a.start_char ≤ b.start_char) ∧
        0 ≤ E ∧ E ≤ ((List.replicate 12 'a').length : Int) ∧
        (∀ p : Int, 0 ≤ p → p < E →
          ∃ c ∈ chunks, c.start_char ≤ p ∧ p < c.end_char) ∧
        (E = ((List.replicate 12 'a').length : Int) ∨
          ((List.replicate 12 'a').length : Int) - E < (5 : Int).fdiv 2)) :=
  ⟨by norm_num, by norm_num, by norm_num, by norm_num,
    c3_fixed_chunks_cover (List.replicate 12 'a') 5 1 13 (by norm_num)
      (by norm_num) (by norm_num) (by norm_num)⟩

/-- The 11-character text on which chunkSize 10, overlap 5 loops forever. -/
def txtC3 : List Char := List.replicate 11 'a'

lemma c3div_loop6 : ∀ n, fixedLoop txtC3 10 5 n 6 = none := by
  intro n
  induction n with
  | zero => rfl
  | succ n ih =>
    have hstep : fixedLoop txtC3 10 5 (n + 1) 6 =
        (fixedLoop txtC3 10 5 n 6).map
          ((⟨pySlice txtC3 6 11, 6, 11⟩ : Chunk) :: ·) := rfl
    rw [hstep, ih]
    rfl

lemma c3div_loop5 : ∀ n, fixedLoop txtC3 10 5 n 5 = none := by
  intro n
  cases n with
  | zero => rfl
  | succ n =>
    have hstep : fixedLoop txtC3 10 5 (n + 1) 5 =
        (fixedLoop txtC3 10 5 n 6).map
          ((⟨pySlice txtC3 5 11, 5, 11⟩ : Chunk) :: ·) := rfl
    rw [hstep, c3div_loop6]
    rfl

/-- C3 counterexample: the claim allows any overlap, but with chunkSize 10
and overlap 5 (= chunkSize // 2) on an 11-character text, the loop reaches
start = 6 and then recomputes start = 6 forever: no chunk list is ever
produced, for any amount of fuel. -/
theorem c3_counterexample : fixedChunksDiverge txtC3 10 5 := by
  intro n
  rw [createFixedChunks, if_neg (by norm_num [txtC3])]
  cases n with
  | zero => rfl
  | succ n =>
    have hstep : fixedLoop txtC3 10 5 (n + 1) 0 =
        (fixedLoop txtC3 10 5 n 5).map
          ((⟨pySlice txtC3 0 10, 0, 10⟩ : Chunk) :: ·) := rfl
    rw [hstep, c3div_loop5]
    rfl

/-! ## DocumentProcessor._create_adaptive_chunks and _create_chunks
(document_processor.py 377-399 and 451-534) -/

/-- Python \s for the ASCII range (the embedded texts are ASCII). -/
def isPySpace (c : Char) : Bool :=
  c = ' ' || c = '\t' || c = '\n' || c = '\r' || c = '\x0b' || c = '\x0c'

/-- Index of the last newline of a list, if any. -/
def lastNewlineIdx (l : List Char) : Option Nat :=
  (l.reverse.findIdx? (fun c => c = '\n')).map (fun j => l.length - 1 - j)

/-- Length of the regex match of \n\s*\n at the head of the list, if any:
a newline, then the longest whitespace run that still ends with a newline
(greedy \s* with backtracking into the final \n). -/
def matchBlankAt : List Char → Option Nat
  | '\n' :: rest =>
    (lastNewlineIdx (rest.takeWhile isPySpace)).map (fun j => j + 2)
  | _ => none

/-- Worker for re.split of the paragraph separator: accumulates the current
segment (reversed) and splits at every match.  Each step consumes at least
one character, so fuel length + 1 always suffices. -/
def splitBlankAux : Nat → List Char → List Char → List (List Char)
  | 0, accRev, s => [accRev.reverse ++ s]
  | n + 1, accRev, s =>
    match matchBlankAt s with
    | some k => accRev.reverse :: splitBlankAux n [] (s.drop k)
    | none =>
      match s with
      | [] => [accRev.reverse]
      | c :: rest => splitBlankAux n (c :: accRev) rest

/-- re.split of the blank-line paragraph separator over the text. -/
def splitParagraphs (s : List Char) : List (List Char) :=
  splitBlankAux (s.length + 1) [] s

/-- Python str.strip() for ASCII whitespace. -/
def pyStrip (s : List Char) : List Char :=
  ((s.dropWhile isPySpace).reverse.dropWhile isPySpace).reverse

/-- Two-newline join of the paragraph buffer. -/
def joinParas (ps : List (List Char)) : List Char :=
  List.intercalate ['\n', '\n'] ps

/-- The buffer-flush step of the adaptive loop: when adding the next
paragraph would exceed chunk_size and the buffer is non-empty, emit the
buffer as a chunk and reseed it with its last two paragraphs.  Returns the
emitted chunks, the new buffer, the new running size and the new start. -/
def flushStep (cs : Int) (buf : List (List Char)) (size start psize : Int) :
    List Chunk × List (List Char) × Int × Int :=
  if size + psize > cs ∧ size > 0 then
    let ctext := joinParas buf
    let buf2 := buf.drop (buf.length - 2)
    let size2 : Int := ((buf2.map List.length).sum : Int) + buf2.length - 1
    ([⟨ctext, start, start + (ctext.length : Int)⟩], buf2, size2,
      start + (ctext.length : Int) - size2)
  else ([], buf, size, start)

/-- The paragraph loop of _create_adaptive_chunks.  A paragraph larger than
chunk_size is segmented by _create_fixed_chunks (so the fuel threading and
the possibility of none propagate), its sub-chunks except the first appended
directly.  Any remaining buffer is flushed at end of text. -/
def adaptiveLoop (cs ov : Int) (fuel : Nat) :
    List (List Char) → List (List Char) → Int → Int → Option (List Chunk)
  | [], buf, _, start =>
    if buf ≠ [] then
      some [⟨joinParas buf, start, start + ((joinParas buf).length : Int)⟩]
    else some []
  | para :: rest, buf, size, start =>
    let p := pyStrip para
    if p = [] then adaptiveLoop cs ov fuel rest buf size start
    else
      let psize : Int := p.length
      let st := flushStep cs buf size start psize
      if psize > cs then
        match createFixedChunks fuel p cs ov with
        | none => none
        | some pcs =>
          (adaptiveLoop cs ov fuel rest [] 0 (st.2.2.2 + psize)).map
            (fun tail => st.1 ++
              ((pcs.drop 1).map (fun pc =>
                ⟨pc.text, st.2.2.2 + pc.start_char, st.2.2.2 + pc.end_char⟩)) ++
              tail)
      else
        (adaptiveLoop cs ov fuel rest (st.2.1 ++ [p]) (st.2.2.1 + psize + 2)
          st.2.2.2).map (fun tail => st.1 ++ tail)

/-- DocumentProcessor._create_adaptive_chunks. -/
def createAdaptiveChunks (fuel : Nat) (text : List Char) (cs ov : Int) :
    Option (List Chunk) :=
  adaptiveLoop cs ov fuel (splitParagraphs text) [] 0 0

/-- DocumentProcessor._create_chunks: dispatch on the adaptive flag.  There
is no chunk-size validation anywhere on this path. -/
def createChunks (fuel : Nat) (text : List Char) (cs ov : Int)
    (adaptive : Bool) : Option (List Chunk) :=
  if adaptive then createAdaptiveChunks fuel text cs ov
  else createFixedChunks fuel text cs ov

/-- C4 counterexample: the claim says empty input yields zero chunks in both
modes, but fixed mode returns one chunk of empty text with span [0, 0). -/
theorem c4_counterexample :
    createChunks 5 [] 10 2 false = some [⟨[], 0, 0⟩] ∧
      createChunks 5 [] 10 2 false ≠ some [] := by
  constructor
  · rfl
  · intro h
    rw [show createChunks 5 [] 10 2 false = some [⟨[], 0, 0⟩] from rfl] at h
    simp at h

lemma c4div_loop0 : ∀ n, fixedLoop ['a'] 0 0 n 0 = none := by
  intro n
  induction n with
  | zero => rfl
  | succ n ih =>
    have hstep : fixedLoop ['a'] 0 0 (n + 1) 0 =
        (fixedLoop ['a'] 0 0 n 0).map
          ((⟨pySlice ['a'] 0 0, 0, 0⟩ : Chunk) :: ·) := rfl
    rw [hstep, ih]
    rfl

/-- C4 (amended): empty input yields zero chunks in adaptive mode but a
single empty chunk spanning [0, 0) in fixed mode, and there is no
chunkSize validation at all: a call with chunkSize ≤ 0 does not fail with
InvalidArgument — on empty text with chunkSize 0 fixed mode still returns
the single empty chunk, and on the non-empty text "a" with chunkSize 0 the
loop never terminates instead of raising. -/
theorem c4_empty_and_no_validation :
    (∀ (cs ov : Int) (fuel : Nat), createChunks fuel [] cs ov true = some []) ∧
    (∀ (cs ov : Int) (fuel : Nat), 0 ≤ cs →
      createChunks fuel [] cs ov false = some [⟨[], 0, 0⟩]) ∧
    fixedChunksDiverge ['a'] 0 0 := by
  refine ⟨?_, ?_, ?_⟩
  · intro cs ov fuel
    rfl
  · intro cs ov fuel hcs
    rw [createChunks, if_neg (by simp), createFixedChunks,
      if_pos (by simpa using hcs)]
    rfl
  · intro n
    rw [createFixedChunks, if_neg (by norm_num)]
    exact c4div_loop0 n

/-- Witness for C4: the amended theorem applied at chunkSize 10, overlap 2,
and the behavior evaluated at those concrete arguments. -/
theorem c4_witness :
    createChunks 3 [] 10 2 true = some [] ∧ (0 : Int) ≤ 10 ∧
      createChunks 3 [] 10 2 false = some [⟨[], 0, 0⟩] ∧
      createFixedChunks 4 ['a'] 0 0 = none :=
  ⟨c4_empty_and_no_validation.1 10 2 3, by norm_num,
    c4_empty_and_no_validation.2.1 10 2 3 (by norm_num),
    c4_empty_and_no_validation.2.2 4⟩

/-! ## MemoryManager (memory_manager.py)

The memory_items table becomes an explicit list of rows; timestamps are
epoch-second integers; SQL conditions become row predicates built exactly
the way the code assembles its WHERE clauses.  ORDER BY is embedded as a
stable sort (SQL leaves the order of fully tied rows unspecified; the stable
refinement fixes it deterministically, and no claim depends on the order of
rows tied on every sort key). -/

/-- One row of the memory_items table. -/
structure MemItem where
  id : Nat
  user_id : Option Int := none
  conversation_id : Option String := none
  content : String := ""
  memory_type : String := "working"
  importance : ℚ := 1/2
  access_count : Nat := 0
  created_at : Int := 0
  last_accessed_at : Int := 0
  expires_at : Option Int := none
  deriving DecidableEq, Repr

/-- The memory configuration defaults of MemoryManager.__init__. -/
structure MemoryCfg where
  working_memory_ttl : Int := 3600
  working_memory_max_items : Int := 50
  short_term_memory_ttl : Int := 86400
  short_term_memory_max_items : Int := 200
  long_term_memory_threshold : ℚ := 7/10
  long_term_memory_max_items : Int := 1000
  deriving Repr

/-- Python truthiness of an optional int argument (if user_id: ...): None
and 0 are falsy. -/
def truthyUser : Option Int → Bool
  | some u => u ≠ 0
  | none => false

/-- The WHERE clause of _prune_memory: memory_type match plus the user filter
when (and only when) user_id is truthy. -/
def pruneCond (mt : String) (u : Option Int) (r : MemItem) : Bool :=
  r.memory_type == mt && (if truthyUser u then r.user_id == u else true)

/-- ORDER BY importance ASC, last_accessed_at ASC, created_at ASC as a total
preorder on rows. -/
def pruneLe (a b : MemItem) : Prop :=
  a.importance < b.importance ∨ (a.importance = b.importance ∧
    (a.last_accessed_at < b.last_accessed_at ∨
      (a.last_accessed_at = b.last_accessed_at ∧ a.created_at ≤ b.created_at)))

instance : DecidableRel pruneLe := fun a b => by
  unfold pruneLe; infer_instance

instance : IsTotal MemItem pruneLe := ⟨by
  intro a b
  rcases lt_trichotomy a.importance b.importance with h | h | h
  · exact Or.inl (Or.inl h)
  · rcases lt_trichotomy a.last_accessed_at b.last_accessed_at with h2 | h2 | h2
    · exact Or.inl (Or.inr ⟨h, Or.inl h2⟩)
    · rcases le_total a.created_at b.created_at with h3 | h3
      · exact Or.inl (Or.inr ⟨h, Or.inr ⟨h2, h3⟩⟩)
      · exact Or.inr (Or.inr ⟨h.symm, Or.inr ⟨h2.symm, h3⟩⟩)
    · exact Or.inr (Or.inr ⟨h.symm, Or.inl h2⟩)
  · exact Or.inr (Or.inl h)⟩

instance : IsTrans MemItem pruneLe := ⟨by
  intro a b c hab hbc
  rcases hab with h1 | ⟨h1, h1b⟩
  · rcases hbc with h2 | ⟨h2, _⟩
    · exact Or.inl (lt_trans h1 h2)
    · exact Or.inl (h2 ▸ h1)
  · rcases hbc with h2 | ⟨h2, h2b⟩
    · exact Or.inl (h1 ▸ h2)
    · refine Or.inr ⟨h1.trans h2, ?_⟩
      rcases h1b with h3 | ⟨h3, h3b⟩
      · rcases h2b with h4 | ⟨h4, _⟩
        · exact Or.inl (lt_trans h3 h4)
        · exact Or.inl (h4 ▸ h3)
      · rcases h2b with h4 | ⟨h4, h4b⟩
        · exact Or.inl (h3 ▸ h4)
        · exact Or.inr ⟨h3.trans h4, le_trans h3b h4b⟩⟩

lemma pruneLe_refl (a : MemItem) : pruneLe a a :=
  Or.inr ⟨rfl, Or.inr ⟨rfl, le_refl _⟩⟩

/-- The tier capacity chosen by _prune_memory; none for an unknown tier
(the code returns without pruning then). -/
def maxItemsFor (cfg : MemoryCfg) (mt : String) : Option Int :=
  if mt = "working" then some cfg.working_memory_max_items
  else if mt = "short_term" then some cfg.short_term_memory_max_items
  else if mt = "long_term" then some cfg.long_term_memory_max_items
  else none

/-- MemoryManager._prune_memory: when the scoped row count exceeds the tier
capacity, delete the excess rows ordered by importance ASC, last_accessed_at
ASC, created_at ASC. -/
def pruneMemory (cfg : MemoryCfg) (db : List MemItem) (mt : String)
    (u : Option Int) : List MemItem :=
  match maxItemsFor cfg mt with
  | none => db
  | some maxItems =>
    if maxItems ≤ 0 then db
    else
      let inScope := db.filter (pruneCond mt u)
      if (inScope.length : Int) > maxItems then
        let victims := (((inScope.insertionSort pruneLe).take
          ((inScope.length : Int) - maxItems).toNat).map (fun r => r.id))
        db.filter (fun r => !(victims.contains r.id))
      else db

/-- The row built by add_to_memory after tier validation: TTL-based expiry
for working and short_term, none for long_term.  The INSERT leaves
access_count and last_accessed_at to table defaults, modelled as 0 and the
insertion time. -/
def mkMemItem (cfg : MemoryCfg) (now : Int) (content : String) (mt : String)
    (u : Option Int) (cid : Option String) (imp : ℚ) (new_id : Nat) : MemItem :=
  { id := new_id
    user_id := u
    conversation_id := cid
    content := content
    memory_type := mt
    importance := imp
    access_count := 0
    created_at := now
    last_accessed_at := now
    expires_at :=
      if mt = "working" then some (now + cfg.working_memory_ttl)
      else if mt = "short_term" then some (now + cfg.short_term_memory_ttl)
      else none }

/-- MemoryManager.add_to_memory, state-level: empty (stripped) content is a
no-op; an invalid tier defaults to working; one row is inserted and then
exactly one prune pass runs on the (tier, user) scope.  The working-memory
cache mirror and the returned summary dict are collaborator effects outside
the table state. -/
def addToMemory (cfg : MemoryCfg) (now : Int) (db : List MemItem)
    (content : String) (memory_type : String) (u : Option Int)
    (cid : Option String) (imp : ℚ) (new_id : Nat) : List MemItem :=
  if pyStrip content.toList = [] then db
  else
    let mt := if memory_type = "working" ∨ memory_type = "short_term" ∨
        memory_type = "long_term" then memory_type else "working"
    pruneMemory cfg (db ++ [mkMemItem cfg now content mt u cid imp new_id]) mt u

/-! Support lemmas for claim C8. -/

lemma contains_iff_mem {α : Type} [BEq α] [LawfulBEq α] {l : List α} {a : α} :
    l.contains a = true ↔ a ∈ l := by
  simp [List.contains_eq_any_beq, List.any_eq_true]

section PruneLemmas

variable {db : List MemItem} {mt : String} {u : Option Int}

/-- Removing the first k rows of the prune ordering from the scope leaves
exactly length - k rows, provided row ids are unique. -/
lemma filter_victims_length (S : List MemItem)
    (hnd : (S.map (fun r => r.id)).Nodup) (k : Nat) :
    (S.filter (fun r =>
      !((((S.insertionSort pruneLe).take k).map (fun x => x.id)).contains r.id))).length
      = S.length - k := by
  set p : MemItem → Bool := fun r =>
    !((((S.insertionSort pruneLe).take k).map (fun x => x.id)).contains r.id) with hp
  have hperm : (S.insertionSort pruneLe).Perm S := List.perm_insertionSort _ _
  have hnds : ((S.insertionSort pruneLe).map (fun r => r.id)).Nodup :=
    ((hperm.map (fun r => r.id)).nodup_iff).mpr hnd
  have hlen : (S.filter p).length = ((S.insertionSort pruneLe).filter p).length :=
    (hperm.symm.filter p).length_eq
  rw [hlen]
  have hsplit : S.insertionSort pruneLe =
      (S.insertionSort pruneLe).take k ++ (S.insertionSort pruneLe).drop k :=
    (List.take_append_drop k _).symm
  rw [show (S.insertionSort pruneLe).filter p =
      ((S.insertionSort pruneLe).take k).filter p ++
        ((S.insertionSort pruneLe).drop k).filter p by
    conv_lhs => rw [hsplit]
    exact List.filter_append _ _]
  have htake : ((S.insertionSort pruneLe).take k).filter p = [] := by
    rw [List.filter_eq_nil_iff]
    intro r hr
    have : r.id ∈ ((S.insertionSort pruneLe).take k).map (fun x => x.id) :=
      List.mem_map_of_mem _ hr
    simp only [hp, Bool.not_eq_true', Bool.not_eq_false]
    exact contains_iff_mem.mpr this
  have hdrop : ((S.insertionSort pruneLe).drop k).filter p =
      (S.insertionSort pruneLe).drop k := by
    rw [List.filter_eq_self]
    intro r hr
    simp only [hp, Bool.not_eq_true']
    by_contra hcontra
    rw [Bool.not_eq_false] at hcontra
    have hid : r.id ∈ ((S.insertionSort pruneLe).take k).map (fun x => x.id) :=
      contains_iff_mem.mp hcontra
    have hid2 : r.id ∈ ((S.insertionSort pruneLe).drop k).map (fun x => x.id) :=
      List.mem_map_of_mem _ hr
    have : (((S.insertionSort pruneLe).take k).map (fun x => x.id) ++
        ((S.insertionSort pruneLe).drop k).map (fun x => x.id)).Nodup := by
      rw [← List.map_append, ← hsplit]
      exact hnds
    exact (List.nodup_append.mp this).2.2 hid hid2
  rw [htake, hdrop, List.nil_append, List.length_drop, hperm.length_eq]

/-- Characterization of _prune_memory above capacity. -/
lemma pruneMemory_over {cfg : MemoryCfg} {maxItems : Int}
    (hmt : maxItemsFor cfg mt = some maxItems) (hpos : 0 < maxItems)
    (hover : ((db.filter (pruneCond mt u)).length : Int) > maxItems) :
    pruneMemory cfg db mt u =
      db.filter (fun r =>
        !(((((db.filter (pruneCond mt u)).insertionSort pruneLe).take
            (((db.filter (pruneCond mt u)).length : Int) - maxItems).toNat).map
          (fun x => x.id)).contains r.id)) := by
  rw [pruneMemory, hmt]
  simp only [if_neg (not_le.mpr hpos), if_pos hover]

/-- Characterization of _prune_memory at or below capacity: no deletion. -/
lemma pruneMemory_under {cfg : MemoryCfg} {maxItems : Int}
    (hmt : maxItemsFor cfg mt = some maxItems) (hpos : 0 < maxItems)
    (hunder : ((db.filter (pruneCond mt u)).length : Int) ≤ maxItems) :
    pruneMemory cfg db mt u = db := by
  rw [pruneMemory, hmt]
  simp only [if_neg (not_le.mpr hpos), if_neg (not_lt.mpr hunder)]

/-- After a prune pass above capacity the scoped count is exactly the
capacity. -/
lemma pruneMemory_count_over {cfg : MemoryCfg} {maxItems : Int}
    (hmt : maxItemsFor cfg mt = some maxItems) (hpos : 0 < maxItems)
    (hids : (db.map (fun r => r.id)).Nodup)
    (hover : ((db.filter (pruneCond mt u)).length : Int) > maxItems) :
    (((pruneMemory cfg db mt u).filter (pruneCond mt u)).length : Int) = maxItems := by
  rw [pruneMemory_over hmt hpos hover]
  rw [List.filter_comm]
  have hnd : ((db.filter (pruneCond mt u)).map (fun r => r.id)).Nodup :=
    ((List.filter_sublist db).map (fun r => r.id)).nodup hids
  rw [filter_victims_length _ hnd]
  omega

end PruneLemmas

/-- pruneCond always accepts the row that add_to_memory just inserted into
the same (tier, user) scope. -/
lemma pruneCond_mkMemItem (cfg : MemoryCfg) (now : Int) (content : String)
    (mt : String) (u : Option Int) (cid : Option String) (imp : ℚ) (nid : Nat) :
    pruneCond mt u (mkMemItem cfg now content mt u cid imp nid) = true := by
  cases h : truthyUser u
  · simp [pruneCond, mkMemItem, h]
  · simp [pruneCond, mkMemItem, h]

/-- C8: prune deletes only above capacity, removes exactly the excess in
(importance, lastAccessed, createdAt) ascending order, leaves the scoped
count at most the capacity; and inserting into a scope already at capacity
runs exactly one prune which removes a single minimal row of the scope and
leaves the scoped count at the capacity. -/
theorem c8_prune_capacity (cfg : MemoryCfg) (db : List MemItem) (mt : String)
    (u : Option Int) (maxItems : Int)
    (hmt : maxItemsFor cfg mt = some maxItems) (hpos : 0 < maxItems)
    (hids : (db.map (fun r => r.id)).Nodup) :
    (((db.filter (pruneCond mt u)).length : Int) ≤ maxItems →
      pruneMemory cfg db mt u = db) ∧
    (((db.filter (pruneCond mt u)).length : Int) > maxItems →
      pruneMemory cfg db mt u =
        db.filter (fun r =>
          !(((((db.filter (pruneCond mt u)).insertionSort pruneLe).take
              (((db.filter (pruneCond mt u)).length : Int) - maxItems).toNat).map
            (fun x => x.id)).contains r.id))) ∧
    ((((pruneMemory cfg db mt u).filter (pruneCond mt u)).length : Int) ≤ maxItems) ∧
    (∀ (now : Int) (content : String) (memory_type : String)
        (cid : Option String) (imp : ℚ) (nid : Nat),
      pyStrip content.toList ≠ [] →
      memory_type = mt →
      (mt = "working" ∨ mt = "short_term" ∨ mt = "long_term") →
      ((db ++ [mkMemItem cfg now content mt u cid imp nid]).map
        (fun r => r.id)).Nodup →
      ((db.filter (pruneCond mt u)).length : Int) = maxItems →
      addToMemory cfg now db content memory_type u cid imp nid =
        pruneMemory cfg (db ++ [mkMemItem cfg now content mt u cid imp nid]) mt u ∧
      ∃ m,
        m ∈ (db ++ [mkMemItem cfg now content mt u cid imp nid]).filter
          (pruneCond mt u) ∧
        (∀ x ∈ (db ++ [mkMemItem cfg now content mt u cid imp nid]).filter
          (pruneCond mt u), pruneLe m x) ∧
        (((addToMemory cfg now db content memory_type u cid imp nid).filter
          (pruneCond mt u)).length : Int) = maxItems) := by
  refine ⟨fun h => pruneMemory_under hmt hpos h, fun h => pruneMemory_over hmt hpos h,
    ?_, ?_⟩
  · by_cases hover : ((db.filter (pruneCond mt u)).length : Int) > maxItems
    · rw [pruneMemory_count_over hmt hpos hids hover]
    · rw [pruneMemory_under hmt hpos (not_lt.mp hover)]
      exact not_lt.mp hover
  · intro now content memory_type cid imp nid hcontent hmteq hvalid hids2 hcount
    subst hmteq
    set item := mkMemItem cfg now content memory_type u cid imp nid with hitem
    have hadd : addToMemory cfg now db content memory_type u cid imp nid =
        pruneMemory cfg (db ++ [item]) memory_type u := by
      rw [addToMemory, if_neg (by simpa using hcontent), if_pos hvalid]
    refine ⟨hadd, ?_⟩
    -- the scope after insertion has maxItems + 1 rows
    have hc : pruneCond memory_type u item = true := by
      rw [hitem]; exact pruneCond_mkMemItem cfg now content memory_type u cid imp nid
    have hfilter2 : (db ++ [item]).filter (pruneCond memory_type u) =
        db.filter (pruneCond memory_type u) ++ [item] := by
      rw [List.filter_append]
      congr 1
      simp [List.filter_cons, hc]
    have hcount2 : (((db ++ [item]).filter (pruneCond memory_type u)).length : Int)
        = maxItems + 1 := by
      rw [hfilter2, List.length_append, List.length_singleton]
      push_cast
      omega
    have hover2 : (((db ++ [item]).filter (pruneCond memory_type u)).length : Int)
        > maxItems := by omega
    -- the sorted scope is non-empty; its head is the minimal removed row
    have hsortperm : (((db ++ [item]).filter (pruneCond memory_type u)).insertionSort
        pruneLe).Perm ((db ++ [item]).filter (pruneCond memory_type u)) :=
      List.perm_insertionSort _ _
    have hsortlen : (((db ++ [item]).filter (pruneCond memory_type u)).insertionSort
        pruneLe).length = ((db ++ [item]).filter (pruneCond memory_type u)).length :=
      hsortperm.length_eq
    rcases hsort : ((db ++ [item]).filter (pruneCond memory_type u)).insertionSort
        pruneLe with _ | ⟨m, tail⟩
    · exfalso
      rw [hsort] at hsortlen
      simp only [List.length_nil] at hsortlen
      omega
    · have hsorted := List.sorted_insertionSort pruneLe
        ((db ++ [item]).filter (pruneCond memory_type u))
      rw [hsort] at hsorted
      have hmmem : m ∈ (db ++ [item]).filter (pruneCond memory_type u) := by
        have : m ∈ ((db ++ [item]).filter (pruneCond memory_type u)).insertionSort
            pruneLe := by rw [hsort]; exact List.mem_cons_self _ _
        exact hsortperm.mem_iff.mp this
      refine ⟨m, hmmem, ?_, ?_⟩
      · intro x hx
        have hxs : x ∈ ((db ++ [item]).filter (pruneCond memory_type u)).insertionSort
            pruneLe := hsortperm.mem_iff.mpr hx
        rw [hsort] at hxs
        rcases List.mem_cons.mp hxs with h | h
        · rw [h]; exact pruneLe_refl m
        · exact (List.pairwise_cons.mp hsorted).1 x h
      · rw [hadd]
        exact pruneMemory_count_over hmt hpos hids2 hover2

/-- A two-item working-memory capacity for the C8 witness. -/
def cfgW : MemoryCfg := { working_memory_max_items := 2 }

/-- Concrete working-memory rows for the C8 witness. -/
def dbW : List MemItem :=
  [ { id := 1, memory_type := "working", importance := 1,
      last_accessed_at := 10, created_at := 5 },
    { id := 2, memory_type := "working", importance := 0,
      last_accessed_at := 20, created_at := 6 } ]

/-- Witness for C8: at capacity 2 with two stored rows, prune is a no-op,
and adding a third row leaves the scoped count at the capacity. -/
theorem c8_witness :
    pruneMemory cfgW dbW "working" none = dbW ∧
      (((addToMemory cfgW 0 dbW "hello" "working" none none 1 3).filter
        (pruneCond "working" none)).length : Int) = 2 := by
  have h := c8_prune_capacity cfgW dbW "working" none 2 rfl (by norm_num) (by decide)
  refine ⟨h.1 (by decide), ?_⟩
  obtain ⟨-, m, -, -, hcount⟩ :=
    h.2.2.2 0 "hello" "working" none 1 3 (by decide) rfl (Or.inl rfl)
      (by decide) (by decide)
  exact hcount

/-! ## MemoryManager.get_memory (memory_manager.py 182-493)

Both search paths assemble their WHERE clause as a list of conditions; the
pg_trgm match operator (content % query), the similarity function and UUID
validity are abstract collaborator parameters.  The per-row dict formatting
of the results is a field-renaming projection and is omitted: the functions
return the selected rows and the table state after the read-through
access-count update. -/

/-- The memory_type filter clause: added only when the argument is truthy. -/
def typeConds (mt : Option String) : List (MemItem → Bool) :=
  match mt with
  | some t => if t = "" then [] else [fun r => r.memory_type == t]
  | none => []

/-- The user filter clause: added only when user_id is truthy, so both None
and 0 yield no user condition. -/
def userConds (u : Option Int) : List (MemItem → Bool) :=
  if truthyUser u then [fun r => r.user_id == u] else []

/-- The conversation filter clause: added when the argument is truthy and
parses as a UUID. -/
def convConds (isUuid : String → Bool) (cid : Option String) :
    List (MemItem → Bool) :=
  match cid with
  | some c => if c ≠ "" ∧ isUuid c then [fun r => r.conversation_id == some c]
      else []
  | none => []

/-- The importance filter clause: added only when min_importance > 0. -/
def impConds (mi : ℚ) : List (MemItem → Bool) :=
  if 0 < mi then [fun r => mi ≤ r.importance] else []

/-- expires_at IS NULL OR expires_at > NOW(). -/
def expiryCond (now : Int) (r : MemItem) : Bool :=
  match r.expires_at with
  | none => true
  | some e => now < e

/-- The full WHERE clause both search paths build (the semantic path
additionally applies the content-match operator). -/
def memConds (isUuid : String → Bool) (mt : Option String) (u : Option Int)
    (cid : Option String) (mi : ℚ) (now : Int) : List (MemItem → Bool) :=
  typeConds mt ++ userConds u ++ convConds isUuid cid ++ impConds mi ++
    [expiryCond now]

/-- Conjunction of all clauses. -/
def passesConds (conds : List (MemItem → Bool)) (r : MemItem) : Bool :=
  conds.all (fun c => c r)

/-- EXTRACT(EPOCH FROM (NOW() - created_at)) / 86400.0. -/
def daysOld (now : Int) (r : MemItem) : ℚ := ((now - r.created_at : Int) : ℚ) / 86400

/-- The semantic ranking expression:
similarity * (1 - recency_weight) + (1 / (days_old + 1)) * recency_weight. -/
def semRank (sim : String → String → ℚ) (q : String) (now : Int) (rw : ℚ)
    (r : MemItem) : ℚ :=
  sim r.content q * (1 - rw) + 1 / (daysOld now r + 1) * rw

/-- Two-key descending lexicographic order (primary key strictly first). -/
def descLex2 {α : Type} (f g : α → ℚ) (a b : α) : Prop :=
  f b < f a ∨ (f a = f b ∧ g b ≤ g a)

instance {α : Type} (f g : α → ℚ) : DecidableRel (descLex2 f g) := fun a b => by
  unfold descLex2; infer_instance

instance {α : Type} (f g : α → ℚ) : IsTotal α (descLex2 f g) := ⟨by
  intro a b
  rcases lt_trichotomy (f a) (f b) with h | h | h
  · exact Or.inr (Or.inl h)
  · rcases le_total (g a) (g b) with h2 | h2
    · exact Or.inr (Or.inr ⟨h.symm, h2⟩)
    · exact Or.inl (Or.inr ⟨h, h2⟩)
  · exact Or.inl (Or.inl h)⟩

instance {α : Type} (f g : α → ℚ) : IsTrans α (descLex2 f g) := ⟨by
  intro a b c hab hbc
  rcases hab with h1 | ⟨h1, h1b⟩
  · rcases hbc with h2 | ⟨h2, _⟩
    · exact Or.inl (lt_trans h2 h1)
    · exact Or.inl (h2 ▸ h1)
  · rcases hbc with h2 | ⟨h2, h2b⟩
    · exact Or.inl (h1 ▸ h2)
    · exact Or.inr ⟨h1.trans h2, le_trans h2b h1b⟩⟩

/-- ORDER BY importance DESC, last_accessed_at DESC, created_at DESC: the
flip of the prune ordering. -/
def recentOrder (a b : MemItem) : Prop := pruneLe b a

instance : DecidableRel recentOrder := fun a b => by
  unfold recentOrder; infer_instance

instance : IsTotal MemItem recentOrder :=
  ⟨fun a b => by
    unfold recentOrder
    exact total_of pruneLe b a⟩

instance : IsTrans MemItem recentOrder :=
  ⟨fun a b c h1 h2 => by
    unfold recentOrder at h1 h2 ⊢
    exact IsTrans.trans _ _ _ h2 h1⟩

/-- The row-selection of _semantic_memory_search. -/
def semanticRows (sim : String → String → ℚ) (matchOp : String → String → Bool)
    (isUuid : String → Bool) (now : Int) (db : List MemItem) (q : String)
    (mt : Option String) (u : Option Int) (cid : Option String) (lim : Nat)
    (mi : ℚ) (rw : ℚ) : List MemItem :=
  ((db.filter (fun r => passesConds (memConds isUuid mt u cid mi now) r &&
      matchOp r.content q)).insertionSort
    (descLex2 (semRank sim q now rw) (fun r => r.importance))).take lim

/-- The row-selection of _get_recent_memory. -/
def recentRows (isUuid : String → Bool) (now : Int) (db : List MemItem)
    (mt : Option String) (u : Option Int) (cid : Option String) (lim : Nat)
    (mi : ℚ) : List MemItem :=
  ((db.filter (passesConds (memConds isUuid mt u cid mi now))).insertionSort
    recentOrder).take lim

/-- The read-through side effect of _update_access_count on the table. -/
def touchRows (now : Int) (ids : List Nat) (db : List MemItem) : List MemItem :=
  db.map (fun r => if ids.contains r.id then
    { r with access_count := r.access_count + 1, last_accessed_at := now }
    else r)

/-- MemoryManager.get_memory: semantic path when the query strips non-empty,
recent path otherwise.  Returns the selected rows and the updated table. -/
def getMemory (sim : String → String → ℚ) (matchOp : String → String → Bool)
    (isUuid : String → Bool) (now : Int) (db : List MemItem)
    (q : Option String) (mt : Option String) (u : Option Int)
    (cid : Option String) (lim : Nat) (mi : ℚ) (rw : ℚ) :
    List MemItem × List MemItem :=
  match q with
  | some s =>
    if pyStrip s.toList ≠ [] then
      let rows := semanticRows sim matchOp isUuid now db s mt u cid lim mi rw
      (rows, touchRows now (rows.map (fun r => r.id)) db)
    else
      let rows := recentRows isUuid now db mt u cid lim mi
      (rows, touchRows now (rows.map (fun r => r.id)) db)
  | none =>
    let rows := recentRows isUuid now db mt u cid lim mi
    (rows, touchRows now (rows.map (fun r => r.id)) db)

/-- C10: get_memory applies the user filter only when user_id is truthy: a
call with user_id = 0 is indistinguishable from a call with no user filter
(both search paths, selection and side effect alike), because the user
clause is simply not added; likewise the min_importance clause is dropped
whenever min_importance is 0 (or any non-positive value). -/
theorem c10_user_zero_and_min_importance
    (sim : String → String → ℚ) (matchOp : String → String → Bool)
    (isUuid : String → Bool) (now : Int) (db : List MemItem) (q : Option String)
    (mt : Option String) (cid : Option String) (lim : Nat) (mi : ℚ) (rw : ℚ) :
    getMemory sim matchOp isUuid now db q mt (some 0) cid lim mi rw =
      getMemory sim matchOp isUuid now db q mt none cid lim mi rw ∧
    userConds (some 0) = [] ∧ userConds none = [] ∧
    (∀ mi2 : ℚ, mi2 ≤ 0 → impConds mi2 = []) := by
  refine ⟨rfl, rfl, rfl, ?_⟩
  intro mi2 h
  rw [impConds, if_neg (not_lt.mpr h)]

/-- A memory row owned by user 42, used to show a user_id = 0 call returns
rows of other users. -/
def dbC10 : List MemItem :=
  [{ id := 7, user_id := some 42, memory_type := "working",
     importance := 1, content := "x" }]

/-- Witness for C10: a recent-path call with user_id = 0 over a table owned
by user 42 equals the unfiltered call and returns that foreign row. -/
theorem c10_witness :
    (getMemory (fun _ _ => (0:ℚ)) (fun _ _ => true) (fun _ => false) 0 dbC10
        none none (some 0) none 10 0 0 =
      getMemory (fun _ _ => (0:ℚ)) (fun _ _ => true) (fun _ => false) 0 dbC10
        none none none none 10 0 0) ∧
    impConds 0 = [] ∧
    (getMemory (fun _ _ => (0:ℚ)) (fun _ _ => true) (fun _ => false) 0 dbC10
        none none (some 0) none 10 0 0).1 = dbC10 := by
  have h := c10_user_zero_and_min_importance (fun _ _ => (0:ℚ)) (fun _ _ => true)
    (fun _ => false) 0 dbC10 none none none 10 0 0
  exact ⟨h.1, h.2.2.2 0 le_rfl, by decide⟩

/-! ## Claim C1: the hybrid merge formulas, ordering and tie-break

The two merge loops are characterized, under distinct keys within each
result list, as: the vector entries in vector order (each one updated by its
matching keyword result, if any), followed by the keyword-only entries in
keyword order; the output is the stable descending sort of that list by
combined score. -/

/-- Validity of a vector result for the merge. -/
def validVec (r : ResultDict) : Bool := keyOk (vecDoc r) (vecCi r)

/-- Validity of a keyword result for the merge. -/
def validKw (r : ResultDict) : Bool :=
  keyOk (r.document_id.getD .pynone) (r.chunk_index.getD .pynone)

/-- The merge key of a vector result. -/
def vecKeyStr (r : ResultDict) : String := mergeKey (vecDoc r) (vecCi r)

/-- The merge key of a keyword result. -/
def kwKeyStr (r : ResultDict) : String :=
  mergeKey (r.document_id.getD .pynone) (r.chunk_index.getD .pynone)

/-- The merged entry a vector result creates. -/
def vecEntryOf (r : ResultDict) : ResultDict := mkVecEntry (vecDoc r) (vecCi r) r

/-- The merged entry a keyword-only result creates. -/
def kwEntryOf (r : ResultDict) : ResultDict :=
  mkKwEntry (r.document_id.getD .pynone) (r.chunk_index.getD .pynone) r

/-- The final merged entry of a valid vector result: its fresh entry,
updated by its matching keyword result when one exists. -/
def mergedEntryOfVec (kr : List ResultDict) (v : ResultDict) : ResultDict :=
  match kr.find? (fun r => validKw r && (kwKeyStr r == vecKeyStr v)) with
  | some k => kwUpdate (k.score.getD 0) (vecEntryOf v)
  | none => vecEntryOf v

/-- The merged dict before sorting, written out: vector entries in vector
order, then the keyword entries whose key no vector entry took. -/
def mergePre (vr kr : List ResultDict) : List ResultDict :=
  (vr.filter validVec).map (mergedEntryOfVec kr) ++
    (kr.filter (fun r => validKw r &&
      !(((vr.filter validVec).map vecKeyStr).contains (kwKeyStr r)))).map kwEntryOf

lemma mergeVecStep_eq (acc : List (String × ResultDict)) (r : ResultDict) :
    mergeVecStep acc r =
      if validVec r then upsertAssoc (vecKeyStr r) (vecEntryOf r) acc else acc := rfl

lemma mergeKwStep_eq (acc : List (String × ResultDict)) (r : ResultDict) :
    mergeKwStep acc r =
      if validKw r then
        (if (acc.lookup (kwKeyStr r)).isSome then
          updateAssoc (kwKeyStr r) (kwUpdate (r.score.getD 0)) acc
        else acc ++ [(kwKeyStr r, kwEntryOf r)])
      else acc := rfl

lemma upsertAssoc_of_lookup_none {k : String} {v : ResultDict} :
    ∀ {l : List (String × ResultDict)}, l.lookup k = none →
      upsertAssoc k v l = l ++ [(k, v)] := by
  intro l
  induction l with
  | nil => intro _; rfl
  | cons kv rest ih =>
    obtain ⟨k1, v1⟩ := kv
    intro h
    rw [List.lookup_cons] at h
    rw [upsertAssoc]
    by_cases hk : k1 = k
    · exfalso
      rw [hk] at h
      simp at h
    · rw [if_neg hk, ih]
      · rfl
      · rcases hbeq : (k == k1) with _ | _
        · rw [hbeq] at h; exact h
        · exfalso; exact hk (beq_iff_eq.mp hbeq).symm

lemma keys_updateAssoc {k : String} {f : ResultDict → ResultDict} :
    ∀ {l : List (String × ResultDict)},
      (updateAssoc k f l).map Prod.fst = l.map Prod.fst := by
  intro l
  induction l with
  | nil => rfl
  | cons kv rest ih =>
    obtain ⟨k1, v1⟩ := kv
    rw [updateAssoc]
    by_cases hk : k1 = k
    · rw [if_pos hk]; rfl
    · rw [if_neg hk]
      simp only [List.map_cons, ih]

lemma lookup_isSome_iff_mem_keys {k : String} :
    ∀ {l : List (String × ResultDict)},
      (l.lookup k).isSome = true ↔ k ∈ l.map Prod.fst := by
  intro l
  induction l with
  | nil => simp [List.lookup]
  | cons kv rest ih =>
    obtain ⟨k1, v1⟩ := kv
    rw [List.lookup_cons]
    rcases hbeq : (k == k1) with _ | _
    · simp only [List.map_cons, List.mem_cons]
      rw [ih]
      constructor
      · exact Or.inr
      · intro h
        rcases h with h | h
        · exfalso
          rw [h] at hbeq
          simp at hbeq
        · exact h
    · simp only [Option.isSome_some, List.map_cons, List.mem_cons]
      constructor
      · intro _; exact Or.inl (beq_iff_eq.mp hbeq)
      · intro _; trivial

lemma updateAssoc_eq_map {k : String} {f : ResultDict → ResultDict} :
    ∀ {l : List (String × ResultDict)}, (l.map Prod.fst).Nodup →
      updateAssoc k f l =
        l.map (fun kv => if kv.1 = k then (kv.1, f kv.2) else kv) := by
  intro l
  induction l with
  | nil => intro _; rfl
  | cons kv rest ih =>
    obtain ⟨k1, v1⟩ := kv
    intro hnd
    rw [List.map_cons] at hnd
    rw [updateAssoc, List.map_cons]
    by_cases hk : k1 = k
    · rw [if_pos hk]
      simp only [if_pos hk]
      congr 1
      have hrest : ∀ kv2 ∈ rest,
          (if kv2.1 = k then ((kv2.1 : String), f kv2.2) else kv2) = kv2 := by
        intro kv2 hkv2
        rw [if_neg]
        intro hcontra
        have : kv2.1 ∈ rest.map Prod.fst := List.mem_map_of_mem _ hkv2
        rw [hcontra, ← hk] at this
        exact (List.nodup_cons.mp hnd).1 this
      rw [List.map_congr_left hrest]
      simp
    · rw [if_neg hk]
      simp only [if_neg hk]
      rw [ih (List.nodup_cons.mp hnd).2]

lemma lookup_singleton_none {k k1 : String} {v : ResultDict} (h : k ≠ k1) :
    ([(k1, v)] : List (String × ResultDict)).lookup k = none := by
  rw [List.lookup_cons, beq_eq_false_iff_ne.mpr h]
  rfl

lemma lookup_append_none {l1 l2 : List (String × ResultDict)} {k : String}
    (h1 : l1.lookup k = none) (h2 : l2.lookup k = none) :
    (l1 ++ l2).lookup k = none := by
  induction l1 with
  | nil => simpa using h2
  | cons kv rest ih =>
    obtain ⟨k1, v1⟩ := kv
    rw [List.lookup_cons] at h1
    rw [List.cons_append, List.lookup_cons]
    rcases hbeq : (k == k1) with _ | _
    · rw [hbeq] at h1
      exact ih h1
    · rw [hbeq] at h1
      exact absurd h1 (by simp)

lemma lookup_append_single_of_ne {l : List (String × ResultDict)}
    {k k1 : String} {v1 : ResultDict} (h : k ≠ k1) :
    (l ++ [(k1, v1)]).lookup k = l.lookup k := by
  induction l with
  | nil => simpa using lookup_singleton_none (v := v1) h
  | cons kv rest ih =>
    obtain ⟨k2, v2⟩ := kv
    rw [List.cons_append, List.lookup_cons, List.lookup_cons]
    rcases hbeq : (k == k2) with _ | _
    · exact ih
    · rfl

lemma find?_key_nodup {l : List ResultDict} {x : ResultDict}
    {p : ResultDict → Bool} {key : ResultDict → String}
    (hnd : ((l.filter p).map key).Nodup) (hx : x ∈ l) (hpx : p x = true) :
    l.find? (fun r => p r && (key r == key x)) = some x := by
  induction l with
  | nil => simp at hx
  | cons h rest ih =>
    by_cases hcond : (p h && (key h == key x)) = true
    · simp only [List.find?_cons, hcond]
      rcases List.mem_cons.mp hx with hxh | hxr
      · rw [hxh]
      · exfalso
        have hcond2 := Bool.and_eq_true _ _ |>.mp hcond
        have hkeyx : key x ∈ (rest.filter p).map key :=
          List.mem_map_of_mem _ (List.mem_filter.mpr ⟨hxr, hpx⟩)
        rw [List.filter_cons_of_pos hcond2.1, List.map_cons] at hnd
        exact (List.nodup_cons.mp hnd).1 (beq_iff_eq.mp hcond2.2 ▸ hkeyx)
    · rw [Bool.not_eq_true] at hcond
      simp only [List.find?_cons, hcond]
      have hxr : x ∈ rest := by
        rcases List.mem_cons.mp hx with hxh | hxr
        · exfalso
          rw [hxh] at hpx
          rw [hpx, hxh] at hcond
          simp at hcond
        · exact hxr
      have hnd2 : ((rest.filter p).map key).Nodup := by
        by_cases hph : p h = true
        · rw [List.filter_cons_of_pos hph, List.map_cons] at hnd
          exact (List.nodup_cons.mp hnd).2
        · rwa [List.filter_cons_of_neg hph] at hnd
      exact ih hnd2 hxr

lemma find?_key_none {l : List ResultDict} {p : ResultDict → Bool}
    {key : ResultDict → String} {ktarget : String}
    (hnot : ktarget ∉ (l.filter p).map key) :
    l.find? (fun r => p r && (key r == ktarget)) = none := by
  rw [List.find?_eq_none]
  intro r hr hcontra
  have h2 := Bool.and_eq_true _ _ |>.mp hcontra
  apply hnot
  rw [← beq_iff_eq.mp h2.2]
  exact List.mem_map_of_mem _ (List.mem_filter.mpr ⟨hr, h2.1⟩)

lemma lookup_pairMap {l : List ResultDict} {f : ResultDict → String}
    {g : ResultDict → ResultDict} {k : String} :
    ((l.map (fun r => (f r, g r))).lookup k).isSome = (l.map f).contains k := by
  induction l with
  | nil => rfl
  | cons r rest ih =>
    rw [List.map_cons, List.lookup_cons, List.map_cons, List.contains_cons]
    rcases hbeq : (k == f r) with _ | _
    · rw [Bool.false_or]
      exact ih
    · rfl

/-- The vector loop of _merge_results appends one entry per valid vector
result, in order, when the incoming keys are fresh and duplicate-free. -/
lemma vecFold_eq :
    ∀ (l : List ResultDict) (acc : List (String × ResultDict)),
      (∀ r ∈ l, validVec r = true → acc.lookup (vecKeyStr r) = none) →
      ((l.filter validVec).map vecKeyStr).Nodup →
      l.foldl mergeVecStep acc =
        acc ++ (l.filter validVec).map (fun r => (vecKeyStr r, vecEntryOf r)) := by
  intro l
  induction l with
  | nil => intro acc _ _; simp
  | cons r rest ih =>
    intro acc hnone hnd
    rw [List.foldl_cons, mergeVecStep_eq]
    by_cases hval : validVec r = true
    · rw [if_pos hval,
        upsertAssoc_of_lookup_none (hnone r (List.mem_cons_self _ _) hval)]
      have hnd2 : ((rest.filter validVec).map vecKeyStr).Nodup := by
        rw [List.filter_cons_of_pos hval, List.map_cons] at hnd
        exact (List.nodup_cons.mp hnd).2
      have hknotin : vecKeyStr r ∉ (rest.filter validVec).map vecKeyStr := by
        rw [List.filter_cons_of_pos hval, List.map_cons] at hnd
        exact (List.nodup_cons.mp hnd).1
      rw [ih (acc ++ [(vecKeyStr r, vecEntryOf r)]) ?_ hnd2]
      · rw [List.filter_cons_of_pos hval, List.map_cons, List.append_assoc,
          List.singleton_append]
      · intro r2 hr2 hval2
        refine lookup_append_none (hnone r2 (List.mem_cons_of_mem _ hr2) hval2)
          (lookup_singleton_none ?_)
        intro hcontra
        apply hknotin
        rw [← hcontra]
        exact List.mem_map_of_mem _ (List.mem_filter.mpr ⟨hr2, hval2⟩)
    · rw [if_neg hval]
      rw [ih acc (fun r2 hr2 => hnone r2 (List.mem_cons_of_mem _ hr2))
        (by rwa [List.filter_cons_of_neg hval] at hnd),
        List.filter_cons_of_neg hval]

/-- The in-place update a keyword-result list applies to a merged entry: the
first matching keyword result, if any, sets the keyword score. -/
def kwUpdFn (l : List ResultDict) (kv : String × ResultDict) :
    String × ResultDict :=
  match l.find? (fun r => validKw r && (kwKeyStr r == kv.1)) with
  | some r => (kv.1, kwUpdate (r.score.getD 0) kv.2)
  | none => kv

/-- A keyword result creates a fresh entry iff it is valid and its key is
absent from the accumulated dict. -/
def kwNewFilter (acc : List (String × ResultDict)) (r : ResultDict) : Bool :=
  validKw r && !((acc.lookup (kwKeyStr r)).isSome)

lemma kwUpdFn_nil (kv : String × ResultDict) : kwUpdFn [] kv = kv := rfl

/-- The keyword loop of _merge_results: each accumulated entry is updated by
its first matching keyword result, and the valid keyword results with fresh
keys are appended in order — provided keys are duplicate-free on both sides. -/
lemma kwFold_eq :
    ∀ (l : List ResultDict) (acc : List (String × ResultDict)),
      ((l.filter validKw).map kwKeyStr).Nodup →
      (acc.map Prod.fst).Nodup →
      l.foldl mergeKwStep acc =
        acc.map (kwUpdFn l) ++
          (l.filter (kwNewFilter acc)).map (fun r => (kwKeyStr r, kwEntryOf r)) := by
  intro l
  induction l with
  | nil =>
    intro acc _ _
    rw [List.foldl_nil]
    rw [List.map_congr_left (fun kv _ => kwUpdFn_nil kv)]
    simp
  | cons r rest ih =>
    intro acc hnd hndacc
    by_cases hval : validKw r = true
    · have hnd2 : ((rest.filter validKw).map kwKeyStr).Nodup := by
        rw [List.filter_cons_of_pos hval, List.map_cons] at hnd
        exact (List.nodup_cons.mp hnd).2
      have hheadnotin : kwKeyStr r ∉ (rest.filter validKw).map kwKeyStr := by
        rw [List.filter_cons_of_pos hval, List.map_cons] at hnd
        exact (List.nodup_cons.mp hnd).1
      by_cases hmem : (acc.lookup (kwKeyStr r)).isSome = true
      · -- update-in-place case
        have hstep : mergeKwStep acc r =
            updateAssoc (kwKeyStr r) (kwUpdate (r.score.getD 0)) acc := by
          rw [mergeKwStep_eq, if_pos hval, if_pos hmem]
        rw [List.foldl_cons, hstep, updateAssoc_eq_map hndacc]
        have hkeys : ((acc.map (fun kv =>
            if kv.1 = kwKeyStr r then (kv.1, kwUpdate (r.score.getD 0) kv.2)
            else kv)).map Prod.fst) = acc.map Prod.fst := by
          rw [List.map_map]
          apply List.map_congr_left
          intro kv _
          by_cases hkv : kv.1 = kwKeyStr r
          · simp [hkv]
          · simp [hkv]
        rw [ih _ hnd2 (by rw [hkeys]; exact hndacc)]
        congr 1
        · rw [List.map_map]
          apply List.map_congr_left
          intro kv _
          by_cases hkv : kv.1 = kwKeyStr r
          · have hfind : rest.find? (fun r2 => validKw r2 && (kwKeyStr r2 == kv.1))
                = none := by
              rw [hkv]; exact find?_key_none hheadnotin
            have hhead : (validKw r && (kwKeyStr r == kv.1)) = true := by
              rw [hkv]; simp [hval]
            simp only [Function.comp_apply, if_pos hkv, kwUpdFn, List.find?_cons,
              hhead, hfind]
          · have hhead : (validKw r && (kwKeyStr r == kv.1)) = false := by
              have : ¬(kwKeyStr r = kv.1) := fun h => hkv h.symm
              simp [beq_eq_false_iff_ne.mpr this]
            simp only [Function.comp_apply, if_neg hkv, kwUpdFn, List.find?_cons,
              hhead]
        · have hlook : ∀ k, (((acc.map (fun kv =>
              if kv.1 = kwKeyStr r then (kv.1, kwUpdate (r.score.getD 0) kv.2)
              else kv)).lookup k).isSome) = ((acc.lookup k).isSome) := by
            intro k
            have h1 := lookup_isSome_iff_mem_keys (k := k) (l := acc.map (fun kv =>
              if kv.1 = kwKeyStr r then (kv.1, kwUpdate (r.score.getD 0) kv.2)
              else kv))
            have h2 := lookup_isSome_iff_mem_keys (k := k) (l := acc)
            rw [hkeys] at h1
            by_cases hm : k ∈ acc.map Prod.fst
            · rw [h1.mpr hm, h2.mpr hm]
            · exact (Bool.eq_false_iff.mpr (fun hc => hm (h1.mp hc))).trans
                (Bool.eq_false_iff.mpr (fun hc => hm (h2.mp hc))).symm
          have hfc : rest.filter (kwNewFilter (acc.map (fun kv =>
              if kv.1 = kwKeyStr r then (kv.1, kwUpdate (r.score.getD 0) kv.2)
              else kv))) = rest.filter (kwNewFilter acc) := by
            apply List.filter_congr
            intro r2 _
            rw [kwNewFilter, kwNewFilter, hlook]
          rw [hfc]
          have hndf : kwNewFilter acc r = false := by
            rw [kwNewFilter, hval, hmem]
            rfl
          rw [List.filter_cons_of_neg (by rw [hndf]; simp)]
      · -- fresh-key append case
        have hstep : mergeKwStep acc r = acc ++ [(kwKeyStr r, kwEntryOf r)] := by
          rw [mergeKwStep_eq, if_pos hval, if_neg hmem]
        have hnotmem : kwKeyStr r ∉ acc.map Prod.fst := fun hc =>
          hmem (lookup_isSome_iff_mem_keys.mpr hc)
        have hndacc2 : ((acc ++ [(kwKeyStr r, kwEntryOf r)]).map Prod.fst).Nodup := by
          rw [List.map_append]
          rw [List.nodup_append]
          refine ⟨hndacc, List.nodup_singleton _, ?_⟩
          intro k hk hk2
          simp only [List.map_cons, List.map_nil, List.mem_singleton] at hk2
          rw [hk2] at hk
          exact hnotmem hk
        rw [List.foldl_cons, hstep, ih _ hnd2 hndacc2]
        have hmap : (acc ++ [(kwKeyStr r, kwEntryOf r)]).map (kwUpdFn rest) =
            acc.map (kwUpdFn (r :: rest)) ++ [(kwKeyStr r, kwEntryOf r)] := by
          rw [List.map_append]
          congr 1
          · apply List.map_congr_left
            intro kv hkv
            have hne : kwKeyStr r ≠ kv.1 := by
              intro hc
              apply hnotmem
              rw [hc]
              exact List.mem_map_of_mem _ hkv
            have hhead : (validKw r && (kwKeyStr r == kv.1)) = false := by
              simp [beq_eq_false_iff_ne.mpr hne]
            rw [kwUpdFn, kwUpdFn]
            simp only [List.find?_cons, hhead]
          · simp only [List.map_cons, List.map_nil]
            congr 1
            rw [kwUpdFn]
            have hfind : rest.find? (fun r2 => validKw r2 &&
                (kwKeyStr r2 == (kwKeyStr r, kwEntryOf r).1)) = none :=
              find?_key_none hheadnotin
            rw [hfind]
        have hfc : rest.filter (kwNewFilter (acc ++ [(kwKeyStr r, kwEntryOf r)])) =
            rest.filter (kwNewFilter acc) := by
          apply List.filter_congr
          intro r2 hr2
          rw [kwNewFilter, kwNewFilter]
          by_cases hv2 : validKw r2 = true
          · have hne : kwKeyStr r2 ≠ kwKeyStr r := by
              intro hc
              apply hheadnotin
              rw [← hc]
              exact List.mem_map_of_mem _ (List.mem_filter.mpr ⟨hr2, hv2⟩)
            rw [lookup_append_single_of_ne hne]
          · rw [Bool.not_eq_true] at hv2
            rw [hv2]
            rfl
        rw [hmap, hfc]
        have hpos : kwNewFilter acc r = true := by
          rw [kwNewFilter, hval]
          rw [Bool.not_eq_true] at hmem
          rw [hmem]
          rfl
        rw [List.filter_cons_of_pos hpos, List.map_cons, List.append_assoc,
          List.singleton_append]
    · -- invalid keyword result: skipped entirely
      rw [Bool.not_eq_true] at hval
      have hstep : mergeKwStep acc r = acc := by
        rw [mergeKwStep_eq, if_neg (by rw [hval]; simp)]
      have hnd2 : ((rest.filter validKw).map kwKeyStr).Nodup := by
        rwa [List.filter_cons_of_neg (by rw [hval]; simp)] at hnd
      rw [List.foldl_cons, hstep, ih acc hnd2 hndacc]
      congr 1
      · apply List.map_congr_left
        intro kv _
        have hhead : (validKw r && (kwKeyStr r == kv.1)) = false := by
          rw [hval]; rfl
        rw [kwUpdFn, kwUpdFn]
        simp only [List.find?_cons, hhead]
      · have hneg : kwNewFilter acc r = false := by
          rw [kwNewFilter, hval]; rfl
        rw [List.filter_cons_of_neg (by rw [hneg]; simp)]

/-- _merge_results, characterized: the stable descending sort by combined
score of the vector entries (in vector order, keyword-updated) followed by
the keyword-only entries (in keyword order) — under duplicate-free keys on
each side. -/
lemma mergeResults_eq (vr kr : List ResultDict)
    (hv : ((vr.filter validVec).map vecKeyStr).Nodup)
    (hk : ((kr.filter validKw).map kwKeyStr).Nodup) :
    mergeResults vr kr =
      sortDescBy (fun x => x.combined_score.getD 0) (mergePre vr kr) := by
  have hsnd : (kr.foldl mergeKwStep (vr.foldl mergeVecStep [])).map Prod.snd =
      mergePre vr kr := by
    rw [vecFold_eq vr [] (fun r _ _ => rfl) hv, List.nil_append]
    have hkeys : (((vr.filter validVec).map
        (fun r => (vecKeyStr r, vecEntryOf r))).map Prod.fst).Nodup := by
      rw [List.map_map]
      exact hv
    rw [kwFold_eq kr _ hk hkeys, mergePre, List.map_append, List.map_map,
      List.map_map]
    congr 1
    · apply List.map_congr_left
      intro v _
      rcases hf : kr.find? (fun r => validKw r && (kwKeyStr r == vecKeyStr v))
        with _ | k
      · simp [kwUpdFn, mergedEntryOfVec, hf]
      · simp [kwUpdFn, mergedEntryOfVec, hf]
    · have hfc : kr.filter (kwNewFilter ((vr.filter validVec).map
          (fun r => (vecKeyStr r, vecEntryOf r)))) =
          kr.filter (fun r => validKw r &&
            !(((vr.filter validVec).map vecKeyStr).contains (kwKeyStr r))) := by
        apply List.filter_congr
        intro r2 _
        rw [kwNewFilter, lookup_pairMap]
      rw [hfc, List.map_map]
      apply List.map_congr_left
      intro r2 _
      rfl
  rw [mergeResults, hsnd]

/-- C1: when each search's candidates carry distinct keys, the hybrid merge
gives a key present in both lists combined = 0.7 * vector + 0.3 * keyword,
a vector-only key combined = vector, a keyword-only key combined =
0.3 * keyword; the output is sorted descending by combined score, and two
tied vector-sourced entries keep their original vector order (stable sort). -/
theorem c1_hybrid_merge_formulas_and_order (vr kr : List ResultDict)
    (hv : ((vr.filter validVec).map vecKeyStr).Nodup)
    (hk : ((kr.filter validKw).map kwKeyStr).Nodup) :
    (∀ v ∈ vr, validVec v = true → ∀ k ∈ kr, validKw k = true →
      kwKeyStr k = vecKeyStr v →
      mergedEntryOfVec kr v ∈ mergeResults vr kr ∧
      (mergedEntryOfVec kr v).combined_score =
        some (7/10 * v.score.getD 0 + 3/10 * k.score.getD 0)) ∧
    (∀ v ∈ vr, validVec v = true →
      vecKeyStr v ∉ (kr.filter validKw).map kwKeyStr →
      mergedEntryOfVec kr v ∈ mergeResults vr kr ∧
      (mergedEntryOfVec kr v).combined_score = some (v.score.getD 0)) ∧
    (∀ k ∈ kr, validKw k = true →
      kwKeyStr k ∉ (vr.filter validVec).map vecKeyStr →
      kwEntryOf k ∈ mergeResults vr kr ∧
      (kwEntryOf k).combined_score = some (3/10 * k.score.getD 0)) ∧
    (mergeResults vr kr).Pairwise
      (fun a b => b.combined_score.getD 0 ≤ a.combined_score.getD 0) ∧
    (∀ v1 v2, [v1, v2].Sublist vr → validVec v1 = true → validVec v2 = true →
      (mergedEntryOfVec kr v1).combined_score.getD 0 =
        (mergedEntryOfVec kr v2).combined_score.getD 0 →
      [mergedEntryOfVec kr v1, mergedEntryOfVec kr v2].Sublist
        (mergeResults vr kr)) := by
  have hmem_pre : ∀ e ∈ mergePre vr kr, e ∈ mergeResults vr kr := by
    intro e he
    rw [mergeResults_eq vr kr hv hk, sortDescBy, List.mem_insertionSort]
    exact he
  refine ⟨?_, ?_, ?_, ?_, ?_⟩
  · intro v hvmem hvval k hkmem hkval hkeyeq
    constructor
    · apply hmem_pre
      rw [mergePre]
      apply List.mem_append_left
      exact List.mem_map_of_mem _ (List.mem_filter.mpr ⟨hvmem, hvval⟩)
    · have hfind0 := find?_key_nodup (l := kr) (x := k) hk hkmem hkval
      have hfind : kr.find? (fun r => validKw r && (kwKeyStr r == vecKeyStr v))
          = some k := by
        rw [← hkeyeq]
        exact hfind0
      simp only [mergedEntryOfVec, hfind]
      rfl
  · intro v hvmem hvval hnotin
    constructor
    · apply hmem_pre
      rw [mergePre]
      apply List.mem_append_left
      exact List.mem_map_of_mem _ (List.mem_filter.mpr ⟨hvmem, hvval⟩)
    · have hfind : kr.find? (fun r => validKw r && (kwKeyStr r == vecKeyStr v))
          = none := find?_key_none hnotin
      simp only [mergedEntryOfVec, hfind]
      rfl
  · intro k hkmem hkval hnotin
    constructor
    · apply hmem_pre
      rw [mergePre]
      apply List.mem_append_right
      refine List.mem_map_of_mem _ (List.mem_filter.mpr ⟨hkmem, ?_⟩)
      rw [hkval]
      have : ((vr.filter validVec).map vecKeyStr).contains (kwKeyStr k) = false := by
        rw [← Bool.not_eq_true]
        intro hc
        exact hnotin (contains_iff_mem.mp hc)
      rw [this]
      rfl
    · rfl
  · rw [mergeResults_eq vr kr hv hk, sortDescBy]
    exact List.sorted_insertionSort
      (keyGe (fun x => x.combined_score.getD 0)) (mergePre vr kr)
  · intro v1 v2 hsub hval1 hval2 htie
    rw [mergeResults_eq vr kr hv hk, sortDescBy]
    apply List.pair_sublist_insertionSort
    · exact le_of_eq htie.symm
    · have hsubf : ([v1, v2].filter validVec).Sublist (vr.filter validVec) :=
        hsub.filter validVec
      rw [List.filter_cons_of_pos hval1, List.filter_cons_of_pos hval2,
        List.filter_nil] at hsubf
      have hmapped := hsubf.map (mergedEntryOfVec kr)
      rw [List.map_cons, List.map_cons, List.map_nil] at hmapped
      exact hmapped.trans (List.sublist_append_left _ _)

/-- The single vector candidate of the C1 witness. -/
def v1C1 : ResultDict :=
  { payload := some [("document_id", PyVal.str "d1"), ("chunk_index", PyVal.int 0)],
    score := some (9/10) }

/-- The single keyword candidate of the C1 witness, hitting the same key. -/
def k1C1 : ResultDict :=
  { document_id := some (PyVal.str "d1"), chunk_index := some (PyVal.int 0),
    score := some (1/2) }

/-- Witness for C1: on one matching vector/keyword pair the merged entry is in
the output with combined score 0.7 * 0.9 + 0.3 * 0.5. -/
theorem c1_witness :
    mergedEntryOfVec [k1C1] v1C1 ∈ mergeResults [v1C1] [k1C1] ∧
      (mergedEntryOfVec [k1C1] v1C1).combined_score =
        some (7/10 * (9/10) + 3/10 * (1/2)) := by
  have h := (c1_hybrid_merge_formulas_and_order [v1C1] [k1C1]
    (List.nodup_singleton _) (List.nodup_singleton _)).1
    v1C1 (List.mem_singleton.mpr rfl) rfl
    k1C1 (List.mem_singleton.mpr rfl) rfl rfl
  exact h

/-! ## ReflectionEngine (reflection_engine.py)

The engine's configuration defaults, term/topic extraction (Python regexes
over ASCII input, embedded as explicit scanners with fuel), result analysis,
follow-up generation, the merge/rank step and reflect itself.  The retriever
dependency is a parameter of type String → Except String (List ResultDict);
a raising retrieve call is an error value, and reflect's follow-up loop has
no handler, so the error propagates. -/

/-- ReflectionEngine.__init__ defaults. -/
structure ReflectionConfig where
  enabled : Bool := true
  max_iterations : Nat := 2
  min_relevance_threshold : ℚ := 6/10
  min_coverage_threshold : ℚ := 7/10
  max_gap_queries : Nat := 3
  deriving Repr

/-- Python regex \w for the ASCII range. -/
def isWordChar (c : Char) : Bool :=
  ('a' ≤ c && c ≤ 'z') || ('A' ≤ c && c ≤ 'Z') || ('0' ≤ c && c ≤ '9') || c = '_'

/-- str.lower() for ASCII. -/
def asciiLower (c : Char) : Char :=
  if 'A' ≤ c ∧ c ≤ 'Z' then Char.ofNat (c.toNat + 32) else c

/-- re.findall of \w+: maximal word-character runs, left to right.  Each
step consumes at least one character, so fuel length + 1 suffices. -/
def findWordsAux : Nat → List Char → List (List Char)
  | 0, _ => []
  | _, [] => []
  | n + 1, c :: cs =>
    if isWordChar c then
      ((c :: cs).takeWhile isWordChar) ::
        findWordsAux n ((c :: cs).dropWhile isWordChar)
    else findWordsAux n cs

/-- All \w+ words of a character list. -/
def findWords (s : List Char) : List (List Char) := findWordsAux (s.length + 1) s

/-- The abbreviated stop-word list of _extract_key_terms. -/
def stopWords : List String :=
  ["a", "an", "the", "and", "or", "but", "is", "are", "was", "were",
   "be", "been", "being", "to", "of", "for", "with", "by", "about",
   "against", "between", "into", "through", "during", "before", "after",
   "above", "below", "from", "up", "down", "in", "out", "on", "off",
   "over", "under", "again", "further", "then", "once", "here", "there",
   "when", "where", "why", "how", "all", "any", "both", "each", "few",
   "more", "most", "other", "some", "such", "no", "nor", "not", "only",
   "own", "same", "so", "than", "too", "very", "can", "will", "just",
   "should", "now"]

/-- ReflectionEngine._extract_key_terms: lowercase, split on non-word
characters, drop stop words and words of length at most 2. -/
def extractKeyTerms (s : String) : List String :=
  ((findWords (s.toList.map asciiLower)).map (fun w => String.mk w)).filter
    (fun w => !(stopWords.contains w) && decide (2 < w.length))

/-- First-occurrence deduplication (dict.fromkeys order; also the model for
list(set(...)), whose order CPython leaves unspecified — no claim depends on
that order). -/
def dedupFirstAux : Nat → List String → List String
  | 0, _ => []
  | _, [] => []
  | n + 1, x :: xs => x :: dedupFirstAux n (xs.filter (fun y => y ≠ x))

/-- First-occurrence deduplication at sufficient fuel. -/
def dedupFirst (l : List String) : List String := dedupFirstAux (l.length + 1) l

/-- Regex [A-Z] (ASCII class, as written in the source pattern). -/
def isUpperAZ (c : Char) : Bool := 'A' ≤ c && c ≤ 'Z'

/-- Regex [a-z]. -/
def isLowerAZ (c : Char) : Bool := 'a' ≤ c && c ≤ 'z'

/-- One greedy \s+[a-z]+ extension: the whitespace run then the lowercase
run, both non-empty.  No backtracking is needed: shortening either maximal
run can only expose a character of the same class. -/
def tryExt (s : List Char) : Option (List Char × List Char) :=
  let sp := s.takeWhile isPySpace
  if sp = [] then none
  else
    let r1 := s.dropWhile isPySpace
    let w := r1.takeWhile isLowerAZ
    if w = [] then none
    else some (sp ++ w, r1.dropWhile isLowerAZ)

/-- The capture group of pattern 1: [A-Z][a-z]+(?:\s+[a-z]+)(0 to 2 times),
greedy. -/
def tryGroup1 : List Char → Option (List Char × List Char)
  | [] => none
  | c :: cs =>
    if isUpperAZ c then
      let w1 := cs.takeWhile isLowerAZ
      if w1 = [] then none
      else
        let r1 := cs.dropWhile isLowerAZ
        match tryExt r1 with
        | none => some (c :: w1, r1)
        | some (e1, r2) =>
          match tryExt r2 with
          | none => some (c :: (w1 ++ e1), r2)
          | some (e2, r3) => some (c :: (w1 ++ e1 ++ e2), r3)
    else none

/-- The capture group of pattern 2: [a-z]+\s+[a-z]+(?:\s+[a-z]+) optional,
greedy. -/
def tryGroup2 : List Char → Option (List Char × List Char)
  | [] => none
  | c :: cs =>
    if isLowerAZ c then
      let w1 := (c :: cs).takeWhile isLowerAZ
      let r1 := (c :: cs).dropWhile isLowerAZ
      match tryExt r1 with
      | none => none
      | some (e1, r2) =>
        match tryExt r2 with
        | none => some (w1 ++ e1, r2)
        | some (e2, r3) => some (w1 ++ e1 ++ e2, r3)
    else none

/-- The optional (?:the\s+) prefix: on success, the position after it. -/
def tryThePrefix (s : List Char) : Option (List Char) :=
  match s with
  | 't' :: 'h' :: 'e' :: rest =>
    if rest.takeWhile isPySpace = [] then none
    else some (rest.dropWhile isPySpace)
  | _ => none

/-- Try a full pattern at the current position: prefix-then-group first,
falling back (regex backtracking) to the bare group. -/
def tryMatchP (g : List Char → Option (List Char × List Char))
    (s : List Char) : Option (List Char × List Char) :=
  match tryThePrefix s with
  | some rest =>
    match g rest with
    | some res => some res
    | none => g s
  | none => g s

/-- re.findall over a pattern with the optional prefix: collect captures of
non-overlapping matches, advancing one character on failure. -/
def findallAux (g : List Char → Option (List Char × List Char)) :
    Nat → List Char → List (List Char)
  | 0, _ => []
  | _, [] => []
  | n + 1, c :: cs =>
    match tryMatchP g (c :: cs) with
    | some (cap, rest) => cap :: findallAux g n rest
    | none => findallAux g n cs

/-- ReflectionEngine._extract_query_topics: both regex patterns, then
list(set(...)) (modelled as first-occurrence dedup), then the key-term
fallback. -/
def extractQueryTopics (q : String) : List String :=
  let s := q.toList
  let topics := ((findallAux tryGroup1 (s.length + 1) s ++
    findallAux tryGroup2 (s.length + 1) s).map (fun l => String.mk l))
  let topics2 := dedupFirst topics
  if topics2 = [] then (extractKeyTerms q).take 3 else topics2

/-- ReflectionEngine._analyze_results: relevance from mean score and count,
coverage from term overlap with a count-based floor, gaps (the query topics)
only when a threshold fails. -/
def analyzeResults (cfg : ReflectionConfig) (query : String)
    (results : List ResultDict) : ℚ × ℚ × List String :=
  let relevance : ℚ :=
    if results = [] then 0
    else ((results.map (fun r => r.score.getD 0)).sum / results.length) * (7/10)
      + (min ((results.length : ℚ) / 5) 1) * (3/10)
  let coverage : ℚ :=
    if results = [] then 0
    else
      let qt := dedupFirst (extractKeyTerms query)
      let rt := dedupFirst (results.flatMap (fun r => extractKeyTerms (r.content.getD "")))
      let overlap : ℚ :=
        if qt ≠ [] then ((qt.filter (fun t => rt.contains t)).length : ℚ) / qt.length
        else 0
      max overlap (min ((results.length : ℚ) / 10) (7/10))
  let gaps :=
    if relevance < cfg.min_relevance_threshold ∨
        coverage < cfg.min_coverage_threshold then
      extractQueryTopics query
    else []
  (relevance, coverage, gaps)

/-- ReflectionEngine._generate_follow_up_queries: one query per usable gap
(gaps of length at most 3 skipped), the three generic elaborations as
fallback, first-occurrence dedup, truncation to max_gap_queries. -/
def generateFollowUpQueries (cfg : ReflectionConfig) (query : String)
    (gaps : List String) : List String :=
  let fromGaps := gaps.filterMap (fun g =>
    if g.length ≤ 3 then none else some (query ++ " regarding " ++ g))
  let fqs := if fromGaps = [] then
      ["more details about " ++ query, "additional information on " ++ query,
       "extended explanation of " ++ query]
    else fromGaps
  (dedupFirst fqs).take cfg.max_gap_queries

/-- The RetrievalResult dataclass (post-init defaults for the optional
lists). -/
structure RetrievalResultL where
  query : String
  results : List ResultDict
  has_reflected : Bool := false
  reflection_queries : List String := []
  reflection_results : List (List ResultDict) := []
  knowledge_gaps : List String := []
  has_sufficient_info : Bool := false
  relevance_score : ℚ := 0
  coverage_score : ℚ := 0
  ranked_chunks : List ResultDict := []
  deriving DecidableEq, Repr

/-- One reflection occurrence applied to an existing merged entry: raise
reflection_score to at least the occurrence's score and append the query. -/
def applyOcc (qy : String) (r : ResultDict) (e : ResultDict) : ResultDict :=
  { e with
    reflection_score := some (max (e.reflection_score.getD 0) (r.score.getD 0)),
    queries := e.queries ++ [qy] }

/-- The entry built from an initial result. -/
def initEntry (q : String) (r : ResultDict) : ResultDict :=
  { r with source := some "initial", queries := [q] }

/-- The source tag of reflection pass i (0-based enumeration index). -/
def reflTag (i : Nat) : String := "reflection_" ++ toString (i + 1)

/-- The entry built from the first reflection occurrence of a fresh key. -/
def reflEntry (i : Nat) (qy : String) (r : ResultDict) : ResultDict :=
  { r with source := some (reflTag i),
           reflection_score := some (r.score.getD 0),
           queries := [qy] }

/-- The initial-results loop body of _merge_and_rank_results: insert under
the f-string key only if absent. -/
def reflInitStep (q : String) (acc : List (String × ResultDict))
    (r : ResultDict) : List (String × ResultDict) :=
  let key := kwKeyStr r
  if (acc.lookup key).isSome then acc
  else acc ++ [(key, initEntry q r)]

/-- The reflection-results loop body: update a present key, insert a fresh
one tagged with the pass index. -/
def reflStep (i : Nat) (qy : String) (acc : List (String × ResultDict))
    (r : ResultDict) : List (String × ResultDict) :=
  let key := kwKeyStr r
  if (acc.lookup key).isSome then updateAssoc key (applyOcc qy r) acc
  else acc ++ [(key, reflEntry i qy r)]

/-- The scoring pass of _merge_and_rank_results: base score (reflection
score unless tagged initial), query-count bonus capped at 0.15, and the 0.1
initial bonus. -/
def annotateFinal (r : ResultDict) : ResultDict :=
  let base : ℚ := if r.source ≠ some "initial" then r.reflection_score.getD 0
    else r.score.getD 0
  let qb : ℚ := min ((r.queries.length : ℚ) * (5/100)) (15/100)
  let ib : ℚ := if r.source = some "initial" then 1/10 else 0
  { r with final_score := some (base + qb + ib) }

/-- The cleanup pass: drop the bookkeeping fields, moving final_score into
score. -/
def stripInternal (r : ResultDict) : ResultDict :=
  { r with reflection_score := none, queries := [], source := none,
           score := if r.final_score.isSome then r.final_score else r.score,
           final_score := none }

/-- ReflectionEngine._merge_and_rank_results. -/
def mergeAndRankResults (original_query : String) (initial : List ResultDict)
    (rrs : List (List ResultDict)) (rqs : List String) : List ResultDict :=
  let acc0 := initial.foldl (reflInitStep original_query) []
  let acc1 := ((rrs.zip rqs).enum).foldl
    (fun acc p => p.2.1.foldl (reflStep p.1 p.2.2) acc) acc0
  let scored := (acc1.map Prod.snd).map annotateFinal
  (sortDescBy (fun x => x.final_score.getD 0) scored).map stripInternal

/-- ReflectionEngine.reflect.  The retriever is a parameter; an exception
from retriever.retrieve is an error value, and the follow-up loop has no
try/except, so mapM's short-circuit is exactly the raised exception
propagating out of reflect. -/
def reflectE (cfg : ReflectionConfig)
    (retrieve : String → Except String (List ResultDict))
    (query : String) (initial_results : List ResultDict) :
    Except String RetrievalResultL :=
  if cfg.enabled = false ∨ initial_results = [] then
    .ok { query := query, results := initial_results,
          has_sufficient_info := initial_results ≠ [],
          relevance_score := if initial_results ≠ [] then 7/10 else 0,
          coverage_score := if initial_results ≠ [] then 7/10 else 0,
          ranked_chunks := initial_results }
  else
    let a := analyzeResults cfg query initial_results
    if cfg.min_relevance_threshold ≤ a.1 ∧
        cfg.min_coverage_threshold ≤ a.2.1 then
      .ok { query := query, results := initial_results,
            relevance_score := a.1, coverage_score := a.2.1,
            knowledge_gaps := a.2.2, has_sufficient_info := true,
            ranked_chunks := initial_results }
    else
      let fqs := generateFollowUpQueries cfg query a.2.2
      let fqs2 := if fqs.length > cfg.max_gap_queries
        then fqs.take cfg.max_gap_queries else fqs
      match fqs2.mapM retrieve with
      | .error e => .error e
      | .ok rrs =>
        .ok { query := query, results := initial_results,
              has_reflected := true,
              reflection_queries := fqs,
              reflection_results := rrs,
              knowledge_gaps := a.2.2,
              relevance_score := a.1, coverage_score := a.2.1,
              has_sufficient_info := true,
              ranked_chunks := mergeAndRankResults query initial_results rrs fqs2 }

/-! ### Reflection skipping and failure propagation (C5, C7) -/

/-- Five results of score 0.9: mean score 0.9, count 5. -/
def rsC5 : List ResultDict := List.replicate 5 { score := some (9/10) }

lemma analyzeC5 : analyzeResults {} "zebra" rsC5 = (93/100, 1/2, ["zebra"]) := by
  have hqt : dedupFirst (extractKeyTerms "zebra") = ["zebra"] := rfl
  have hrt : dedupFirst (rsC5.flatMap (fun r => extractKeyTerms (r.content.getD "")))
      = [] := rfl
  have htop : extractQueryTopics "zebra" = ["zebra"] := rfl
  simp only [analyzeResults, hqt, hrt, htop]
  norm_num [rsC5, List.sum_replicate, min_def]

/-- C5 fails on a 5-result list: with mean score 0.9 and count 5 (at least
5), a query whose terms the contents do not cover drives coverage to
max(0, 5/10) = 0.5 < 0.7, so reflect does reflect. -/
theorem c5_counterexample :
    rsC5.length = 5 ∧
    ((rsC5.map (fun r => r.score.getD 0)).sum / rsC5.length : ℚ) = 9/10 ∧
    (reflectE {} (fun _ => Except.ok []) "zebra" rsC5).map
      (fun res => res.has_reflected) = Except.ok true := by
  refine ⟨rfl, by norm_num [rsC5, List.sum_replicate], ?_⟩
  have hfq : generateFollowUpQueries {} "zebra" ["zebra"]
      = ["zebra regarding zebra"] := rfl
  simp only [reflectE, analyzeC5]
  rw [if_neg (by decide), if_neg (by norm_num), hfq]
  rfl

/-- With at least 7 results the count-based floors alone push relevance to
0.63 + 0.3 and coverage to at least 0.7, so both thresholds pass whatever
the contents are. -/
theorem c5_reflection_skipped_when_sufficient
    (retrieve : String → Except String (List ResultDict))
    (q : String) (rs : List ResultDict)
    (hlen : 7 ≤ rs.length)
    (hmean : ((rs.map (fun r => r.score.getD 0)).sum / rs.length : ℚ) = 9/10) :
    ∃ res, reflectE {} retrieve q rs = Except.ok res ∧
      res.has_reflected = false ∧ res.ranked_chunks = rs ∧
      res.has_sufficient_info = true := by
  have hne : rs ≠ [] := by
    intro h
    rw [h] at hlen
    simp at hlen
  have hlenQ : (7 : ℚ) ≤ (rs.length : ℚ) := by exact_mod_cast hlen
  have hrel : (6/10 : ℚ) ≤ (analyzeResults {} q rs).1 := by
    simp only [analyzeResults, if_neg hne, hmean]
    have hmin : min ((rs.length : ℚ) / 5) 1 = 1 := by
      rw [min_eq_right]
      rw [le_div_iff₀ (by norm_num)]
      linarith
    rw [hmin]
    norm_num
  have hcov : (7/10 : ℚ) ≤ (analyzeResults {} q rs).2.1 := by
    simp only [analyzeResults, if_neg hne]
    have hmin : min ((rs.length : ℚ) / 10) (7/10) = 7/10 := by
      rw [min_eq_right]
      rw [le_div_iff₀ (by norm_num)]
      linarith
    rw [hmin]
    exact le_max_right _ _
  simp only [reflectE]
  rw [if_neg (by simp [hne]), if_pos ⟨hrel, hcov⟩]
  exact ⟨_, rfl, rfl, rfl, rfl⟩

/-- Seven results of score 0.9. -/
def rsC5w : List ResultDict := List.replicate 7 { score := some (9/10) }

/-- Witness: on seven 0.9-score results reflect skips reflection. -/
theorem c5_witness :
    7 ≤ rsC5w.length ∧
    ((rsC5w.map (fun r => r.score.getD 0)).sum / rsC5w.length : ℚ) = 9/10 ∧
    ∃ res, reflectE {} (fun _ => Except.ok []) "q" rsC5w = Except.ok res ∧
      res.has_reflected = false ∧ res.ranked_chunks = rsC5w ∧
      res.has_sufficient_info = true :=
  ⟨by norm_num [rsC5w], by norm_num [rsC5w, List.sum_replicate],
    c5_reflection_skipped_when_sufficient (fun _ => Except.ok []) "q" rsC5w
      (by norm_num [rsC5w]) (by norm_num [rsC5w, List.sum_replicate])⟩

/-- C7 fails: a raising follow-up retrieval aborts reflect (no handler
around the loop), it is not treated as an empty result set. -/
theorem c7_counterexample :
    reflectE {} (fun _ => Except.error "retrieval failure") "zebra" rsC5
      = Except.error "retrieval failure" := by
  have hfq : generateFollowUpQueries {} "zebra" ["zebra"]
      = ["zebra regarding zebra"] := rfl
  simp only [reflectE, analyzeC5]
  rw [if_neg (by decide), if_neg (by norm_num), hfq]
  rfl

lemma dedupFirst_cons (x : String) (xs : List String) :
    dedupFirst (x :: xs)
      = x :: dedupFirstAux (xs.length + 1) (xs.filter (fun y => y ≠ x)) := rfl

lemma generateFollowUpQueries_ne_nil (cfg : ReflectionConfig) (q : String)
    (gaps : List String) (hmax : 0 < cfg.max_gap_queries) :
    generateFollowUpQueries cfg q gaps ≠ [] := by
  obtain ⟨m, hm⟩ := Nat.exists_eq_add_of_lt hmax
  simp only [generateFollowUpQueries]
  have key : ∀ (l : List String), l ≠ [] → (dedupFirst l).take cfg.max_gap_queries ≠ [] := by
    intro l hl
    obtain ⟨b, L, hbL⟩ := List.exists_cons_of_ne_nil hl
    rw [hbL, dedupFirst_cons, hm, Nat.zero_add, List.take_succ_cons]
    exact List.cons_ne_nil _ _
  by_cases hg : gaps.filterMap (fun g =>
      if g.length ≤ 3 then none else some (q ++ " regarding " ++ g)) = []
  · rw [if_pos hg]
    exact key _ (List.cons_ne_nil _ _)
  · rw [if_neg hg]
    exact key _ hg

/-- When reflect reaches the follow-up loop (enabled engine, non-empty
initial results, a failed threshold) and every retrieval call raises, the
whole reflect call raises: the error propagates, and no merged result is
produced. -/
theorem c7_follow_up_failure_propagates
    (q : String) (rs : List ResultDict) (e : String)
    (retrieve : String → Except String (List ResultDict))
    (hne : rs ≠ [])
    (hinsuff : ¬((6/10 : ℚ) ≤ (analyzeResults {} q rs).1 ∧
      (7/10 : ℚ) ≤ (analyzeResults {} q rs).2.1))
    (herr : ∀ s, retrieve s = Except.error e) :
    reflectE {} retrieve q rs = Except.error e := by
  simp only [reflectE]
  rw [if_neg (by simp [hne]), if_neg hinsuff]
  have hfq : generateFollowUpQueries {} q (analyzeResults {} q rs).2.2 ≠ [] :=
    generateFollowUpQueries_ne_nil _ _ _ (by decide)
  set fqs := generateFollowUpQueries {} q (analyzeResults {} q rs).2.2 with hfqs
  have h2 : (if fqs.length > ({} : ReflectionConfig).max_gap_queries
      then fqs.take ({} : ReflectionConfig).max_gap_queries else fqs) ≠ [] := by
    split
    · rw [Ne, List.take_eq_nil_iff]
      rintro (h3 | h3)
      · simp at h3
      · exact hfq h3
    · exact hfq
  obtain ⟨b, L, hbL⟩ := List.exists_cons_of_ne_nil h2
  rw [hbL]
  rw [List.mapM_cons, herr b]
  rfl

/-- Witness: the failure-propagation theorem at the zebra example with an
erroring retriever. -/
theorem c7_witness :
    reflectE {} (fun _ => Except.error "timeout") "zebra" rsC5
      = Except.error "timeout" :=
  c7_follow_up_failure_propagates "zebra" rsC5 "timeout"
    (fun _ => Except.error "timeout") (by decide)
    (by rw [analyzeC5]; norm_num) (fun _ => rfl)

/-! ### The merge/rank characterization (C2)

The two accumulation loops of _merge_and_rank_results are characterized
through a per-key lookup invariant: a key first seen in the initial results
keeps that dict, tagged initial, and then absorbs every later follow-up
occurrence of the key; a key first seen in follow-up pass i starts from that
occurrence's dict, tagged reflection_(i+1), and absorbs the rest. -/

/-- All follow-up occurrences of a key, in pass-then-result order, paired
with the query of their pass. -/
def occsD (key : String) (pairs : List (List ResultDict × String)) :
    List (String × ResultDict) :=
  pairs.flatMap (fun p =>
    (p.1.filter (fun r => kwKeyStr r == key)).map (fun r => (p.2, r)))

/-- A batch of occurrences applied in order. -/
def applyOccs (os : List (String × ResultDict)) (e : ResultDict) : ResultDict :=
  os.foldl (fun e2 p => applyOcc p.1 p.2 e2) e

lemma applyOccs_nil (e : ResultDict) : applyOccs [] e = e := rfl

lemma applyOccs_cons (p : String × ResultDict) (os : List (String × ResultDict))
    (e : ResultDict) : applyOccs (p :: os) e = applyOccs os (applyOcc p.1 p.2 e) := rfl

lemma applyOccs_append (os1 os2 : List (String × ResultDict)) (e : ResultDict) :
    applyOccs (os1 ++ os2) e = applyOccs os2 (applyOccs os1 e) := by
  simp only [applyOccs, List.foldl_append]

lemma applyOccs_source (os : List (String × ResultDict)) :
    ∀ (e : ResultDict), (applyOccs os e).source = e.source := by
  induction os with
  | nil => intro e; rfl
  | cons p rest ih => intro e; rw [applyOccs_cons, ih]; rfl

lemma applyOccs_score (os : List (String × ResultDict)) :
    ∀ (e : ResultDict), (applyOccs os e).score = e.score := by
  induction os with
  | nil => intro e; rfl
  | cons p rest ih => intro e; rw [applyOccs_cons, ih]; rfl

lemma applyOccs_document_id (os : List (String × ResultDict)) :
    ∀ (e : ResultDict), (applyOccs os e).document_id = e.document_id := by
  induction os with
  | nil => intro e; rfl
  | cons p rest ih => intro e; rw [applyOccs_cons, ih]; rfl

lemma applyOccs_chunk_index (os : List (String × ResultDict)) :
    ∀ (e : ResultDict), (applyOccs os e).chunk_index = e.chunk_index := by
  induction os with
  | nil => intro e; rfl
  | cons p rest ih => intro e; rw [applyOccs_cons, ih]; rfl

lemma applyOccs_queries (os : List (String × ResultDict)) :
    ∀ (e : ResultDict), (applyOccs os e).queries = e.queries ++ os.map Prod.fst := by
  induction os with
  | nil => intro e; simp [applyOccs_nil]
  | cons p rest ih =>
    intro e
    rw [applyOccs_cons, ih]
    simp [applyOcc]

lemma applyOccs_reflection_of_some (os : List (String × ResultDict)) :
    ∀ (e : ResultDict) (c : ℚ), e.reflection_score = some c →
      (applyOccs os e).reflection_score =
        some (os.foldl (fun acc p => max acc (p.2.score.getD 0)) c) := by
  induction os with
  | nil => intro e c hc; rw [applyOccs_nil, hc]; rfl
  | cons p rest ih =>
    intro e c hc
    rw [applyOccs_cons, List.foldl_cons]
    apply ih
    simp [applyOcc, hc]

lemma lookup_updateAssoc_self {k : String} {f : ResultDict → ResultDict} :
    ∀ {l : List (String × ResultDict)},
      (updateAssoc k f l).lookup k = (l.lookup k).map f := by
  intro l
  induction l with
  | nil => rfl
  | cons kv rest ih =>
    obtain ⟨k1, v1⟩ := kv
    rw [updateAssoc]
    by_cases hk : k1 = k
    · rw [if_pos hk, List.lookup_cons, List.lookup_cons]
      subst hk
      simp
    · rw [if_neg hk, List.lookup_cons, List.lookup_cons]
      rcases hbeq : (k == k1) with _ | _
      · exact ih
      · exact absurd (beq_iff_eq.mp hbeq).symm hk

lemma lookup_updateAssoc_ne {k k2 : String} {f : ResultDict → ResultDict}
    (h : k ≠ k2) :
    ∀ {l : List (String × ResultDict)},
      (updateAssoc k2 f l).lookup k = l.lookup k := by
  intro l
  induction l with
  | nil => rfl
  | cons kv rest ih =>
    obtain ⟨k1, v1⟩ := kv
    rw [updateAssoc]
    by_cases hk : k1 = k2
    · rw [if_pos hk, List.lookup_cons, List.lookup_cons]
      rcases hbeq : (k == k1) with _ | _
      · rfl
      · exact absurd (hk ▸ beq_iff_eq.mp hbeq) h
    · rw [if_neg hk, List.lookup_cons, List.lookup_cons]
      rcases hbeq : (k == k1) with _ | _
      · exact ih
      · rfl

lemma lookup_append_single_self {l : List (String × ResultDict)}
    {k : String} {v : ResultDict} (h : l.lookup k = none) :
    (l ++ [(k, v)]).lookup k = some v := by
  induction l with
  | nil => simp [List.lookup_cons]
  | cons kv rest ih =>
    obtain ⟨k1, v1⟩ := kv
    rw [List.lookup_cons] at h
    rw [List.cons_append, List.lookup_cons]
    rcases hbeq : (k == k1) with _ | _
    · rw [hbeq] at h
      exact ih h
    · rw [hbeq] at h
      exact absurd h (by simp)

lemma lookup_mem {k : String} {v : ResultDict} :
    ∀ {l : List (String × ResultDict)}, l.lookup k = some v → (k, v) ∈ l := by
  intro l
  induction l with
  | nil => intro h; exact absurd h (by simp [List.lookup])
  | cons kv rest ih =>
    obtain ⟨k1, v1⟩ := kv
    intro h
    rw [List.lookup_cons] at h
    rcases hbeq : (k == k1) with _ | _
    · rw [hbeq] at h
      exact List.mem_cons_of_mem _ (ih h)
    · rw [hbeq] at h
      have hv : v1 = v := by simpa using h
      rw [← beq_iff_eq.mp hbeq, hv]
      exact List.mem_cons_self _ _

/-- The initial-results loop, seen through lookup: an existing key wins,
otherwise the first initial dict of the key, tagged. -/
lemma initFold_lookup (q : String) (key : String) :
    ∀ (l : List ResultDict) (acc : List (String × ResultDict)),
      (l.foldl (reflInitStep q) acc).lookup key =
        (acc.lookup key).or
          ((l.find? (fun r => kwKeyStr r == key)).map (initEntry q)) := by
  intro l
  induction l with
  | nil =>
    intro acc
    simp [Option.or_none]
  | cons r rest ih =>
    intro acc
    rw [List.foldl_cons]
    by_cases hk : kwKeyStr r = key
    · have hpred : (kwKeyStr r == key) = true := beq_iff_eq.mpr hk
      rw [List.find?_cons, hpred]
      by_cases hs : (acc.lookup (kwKeyStr r)).isSome = true
      · rw [show reflInitStep q acc r = acc from by rw [reflInitStep]; simp [hs]]
        rw [ih acc]
        obtain ⟨e, he⟩ := Option.isSome_iff_exists.mp (hk ▸ hs)
        rw [he]
        rfl
      · have hnone : acc.lookup key = none := by
          rw [← hk]
          exact Option.not_isSome_iff_eq_none.mp hs
        rw [show reflInitStep q acc r = acc ++ [(kwKeyStr r, initEntry q r)] from by
          rw [reflInitStep]; simp [hs]]
        rw [ih, hnone, Option.none_or, hk]
        rw [lookup_append_single_self hnone]
        rfl
    · have hpred : (kwKeyStr r == key) = false := beq_eq_false_iff_ne.mpr hk
      rw [List.find?_cons, hpred]
      have hlook : (reflInitStep q acc r).lookup key = acc.lookup key := by
        rw [reflInitStep]
        by_cases hs : (acc.lookup (kwKeyStr r)).isSome = true
        · simp [hs]
        · simp only [hs, Bool.false_eq_true, if_false]
          exact lookup_append_single_of_ne (Ne.symm hk)
      rw [ih, hlook]

/-- One reflection pass, seen through lookup: an existing entry absorbs all
occurrences of its key in the pass, a fresh key starts from its first
occurrence and absorbs the rest. -/
lemma reflFold_lookup (i : Nat) (qy : String) (key : String) :
    ∀ (l : List ResultDict) (acc : List (String × ResultDict)),
      (l.foldl (reflStep i qy) acc).lookup key =
        match acc.lookup key, l.filter (fun r => kwKeyStr r == key) with
        | some e, ms => some (applyOccs (ms.map (fun r => (qy, r))) e)
        | none, [] => none
        | none, r1 :: ms =>
            some (applyOccs (ms.map (fun r => (qy, r))) (reflEntry i qy r1)) := by
  intro l
  induction l with
  | nil =>
    intro acc
    rw [List.foldl_nil]
    rcases hacc : acc.lookup key with _ | e
    · rfl
    · rfl
  | cons r rest ih =>
    intro acc
    rw [List.foldl_cons]
    by_cases hk : kwKeyStr r = key
    · have hpred : (kwKeyStr r == key) = true := beq_iff_eq.mpr hk
      rw [show List.filter (fun r => kwKeyStr r == key) (r :: rest)
          = r :: List.filter (fun r => kwKeyStr r == key) rest from by
        simp [List.filter_cons, hpred]]
      rcases hacc : acc.lookup key with _ | e
      · have hs : (acc.lookup (kwKeyStr r)).isSome = false := by
          rw [hk, hacc]; rfl
        rw [show reflStep i qy acc r = acc ++ [(kwKeyStr r, reflEntry i qy r)] from by
          rw [reflStep]; simp [hs]]
        rw [ih]
        rw [show (acc ++ [(kwKeyStr r, reflEntry i qy r)]).lookup key
            = some (reflEntry i qy r) from by
          rw [← hk]
          exact lookup_append_single_self (hk ▸ hacc)]
      · have hs : (acc.lookup (kwKeyStr r)).isSome = true := by
          rw [hk, hacc]; rfl
        rw [show reflStep i qy acc r = updateAssoc (kwKeyStr r) (applyOcc qy r) acc
          from by rw [reflStep]; simp [hs]]
        rw [ih]
        rw [show (updateAssoc (kwKeyStr r) (applyOcc qy r) acc).lookup key
            = some (applyOcc qy r e) from by
          rw [← hk, lookup_updateAssoc_self, hk, hacc]; rfl]
        rfl
    · have hpred : (kwKeyStr r == key) = false := beq_eq_false_iff_ne.mpr hk
      rw [show List.filter (fun r => kwKeyStr r == key) (r :: rest)
          = List.filter (fun r => kwKeyStr r == key) rest from by
        simp [List.filter_cons, hpred]]
      have hlook : (reflStep i qy acc r).lookup key = acc.lookup key := by
        rw [reflStep]
        by_cases hs : (acc.lookup (kwKeyStr r)).isSome = true
        · simp only [hs, if_true]
          exact lookup_updateAssoc_ne (Ne.symm hk)
        · simp only [hs, Bool.false_eq_true, if_false]
          exact lookup_append_single_of_ne (Ne.symm hk)
      rw [ih, hlook]

/-- The per-key invariant of the accumulated dict after the initial pass
and a prefix of the reflection passes. -/
def MergeInv (q : String) (initial : List ResultDict)
    (processed : List (List ResultDict × String))
    (acc : List (String × ResultDict)) : Prop :=
  ∀ key : String,
    match initial.find? (fun r => kwKeyStr r == key) with
    | some r0 =>
        acc.lookup key = some (applyOccs (occsD key processed) (initEntry q r0))
    | none =>
      match occsD key processed with
      | [] => acc.lookup key = none
      | (qy1, r1) :: os =>
          ∃ i, acc.lookup key = some (applyOccs os (reflEntry i qy1 r1))

lemma occsD_append (key : String) (ps1 ps2 : List (List ResultDict × String)) :
    occsD key (ps1 ++ ps2) = occsD key ps1 ++ occsD key ps2 := by
  simp only [occsD, List.flatMap_append]

lemma mergeInv_base (q : String) (initial : List ResultDict) :
    MergeInv q initial [] (initial.foldl (reflInitStep q) []) := by
  intro key
  rcases hf : initial.find? (fun r => kwKeyStr r == key) with _ | r0
  · simp only [occsD, List.flatMap_nil]
    rw [initFold_lookup, hf]
    rfl
  · simp only [occsD, List.flatMap_nil]
    rw [initFold_lookup, hf, applyOccs_nil]
    rfl

/-- Processing a batch of reflection passes preserves the invariant,
whatever pass indices the enumeration carries. -/
lemma mergeInv_passes (q : String) (initial : List ResultDict) :
    ∀ (ps : List (Nat × (List ResultDict × String)))
      (processed : List (List ResultDict × String))
      (acc : List (String × ResultDict)),
      MergeInv q initial processed acc →
      MergeInv q initial (processed ++ ps.map Prod.snd)
        (ps.foldl (fun acc2 p => p.2.1.foldl (reflStep p.1 p.2.2) acc2) acc) := by
  intro ps
  induction ps with
  | nil =>
    intro processed acc hinv
    simpa using hinv
  | cons p rest ih =>
    obtain ⟨i, lr, qy⟩ := p
    intro processed acc hinv
    rw [List.foldl_cons]
    have hstep : MergeInv q initial (processed ++ [(lr, qy)])
        (lr.foldl (reflStep i qy) acc) := by
      intro key
      have hocc : occsD key (processed ++ [(lr, qy)]) =
          occsD key processed ++
            (lr.filter (fun r => kwKeyStr r == key)).map (fun r => (qy, r)) := by
        rw [occsD_append]
        simp [occsD]
      have hkey := hinv key
      rcases hf : initial.find? (fun r => kwKeyStr r == key) with _ | r0
      · rw [hf] at hkey
        simp only [hf, hocc]
        have hkeyI : match occsD key processed with
            | [] => acc.lookup key = none
            | (qy1, r1) :: os =>
                ∃ i, acc.lookup key = some (applyOccs os (reflEntry i qy1 r1)) := hkey
        rcases hos : occsD key processed with _ | ⟨⟨qy1, r1⟩, os⟩
        · rw [hos] at hkeyI
          have hkey2 : acc.lookup key = none := hkeyI
          rw [List.nil_append]
          rcases hfil : lr.filter (fun r => kwKeyStr r == key) with _ | ⟨r1, ms⟩
          · rw [List.map_nil]
            show (lr.foldl (reflStep i qy) acc).lookup key = none
            rw [reflFold_lookup, hkey2, hfil]
          · rw [List.map_cons]
            show ∃ i2, (lr.foldl (reflStep i qy) acc).lookup key
              = some (applyOccs (ms.map (fun r => (qy, r))) (reflEntry i2 qy r1))
            refine ⟨i, ?_⟩
            rw [reflFold_lookup, hkey2, hfil]
        · rw [hos] at hkeyI
          have hkey2 : ∃ i0, acc.lookup key
              = some (applyOccs os (reflEntry i0 qy1 r1)) := hkeyI
          obtain ⟨i0, hi0⟩ := hkey2
          rw [List.cons_append]
          show ∃ i2, (lr.foldl (reflStep i qy) acc).lookup key
            = some (applyOccs (os ++
                (lr.filter (fun r => kwKeyStr r == key)).map (fun r => (qy, r)))
              (reflEntry i2 qy1 r1))
          refine ⟨i0, ?_⟩
          rw [reflFold_lookup, hi0, applyOccs_append]
      · rw [hf] at hkey
        simp only [hf, hocc]
        rw [reflFold_lookup, hkey, applyOccs_append]
    have hl : processed ++ (((i, (lr, qy)) :: rest).map Prod.snd)
        = (processed ++ [(lr, qy)]) ++ rest.map Prod.snd := by
      rw [List.map_cons, List.append_assoc, List.singleton_append]
    rw [hl]
    exact ih (processed ++ [(lr, qy)]) _ hstep

/-- The invariant holds for the fully accumulated dict of
_merge_and_rank_results. -/
lemma mergeInv_acc1 (q : String) (initial : List ResultDict)
    (rrs : List (List ResultDict)) (rqs : List String) :
    MergeInv q initial (rrs.zip rqs)
      (((rrs.zip rqs).enum).foldl
        (fun acc p => p.2.1.foldl (reflStep p.1 p.2.2) acc)
        (initial.foldl (reflInitStep q) [])) := by
  have h := mergeInv_passes q initial ((rrs.zip rqs).enum) [] _
    (mergeInv_base q initial)
  rwa [List.nil_append, List.enum_map_snd] at h

lemma mem_mergeAndRank_of_lookup {q : String} {initial : List ResultDict}
    {rrs : List (List ResultDict)} {rqs : List String} {key : String}
    {em : ResultDict}
    (h : (((rrs.zip rqs).enum).foldl
        (fun acc p => p.2.1.foldl (reflStep p.1 p.2.2) acc)
        (initial.foldl (reflInitStep q) [])).lookup key = some em) :
    stripInternal (annotateFinal em) ∈ mergeAndRankResults q initial rrs rqs := by
  have h1 : em ∈ (((rrs.zip rqs).enum).foldl
      (fun acc p => p.2.1.foldl (reflStep p.1 p.2.2) acc)
      (initial.foldl (reflInitStep q) [])).map Prod.snd :=
    List.mem_map_of_mem Prod.snd (lookup_mem h)
  have h2 := List.mem_map_of_mem annotateFinal h1
  rw [mergeAndRankResults]
  refine List.mem_map_of_mem stripInternal ?_
  rw [sortDescBy, List.mem_insertionSort]
  exact h2

lemma reflTag_ne_initial (i : Nat) : reflTag i ≠ "initial" := by
  intro h
  have hlen := congrArg String.length h
  rw [reflTag, String.length_append] at hlen
  rw [show ("reflection_").length = 11 from rfl,
    show ("initial").length = 7 from rfl] at hlen
  omega

lemma stripInternal_score_of_isSome {r : ResultDict}
    (h : r.final_score.isSome = true) :
    (stripInternal r).score = r.final_score := by
  simp [stripInternal, h]

lemma annotateFinal_isSome (r : ResultDict) :
    (annotateFinal r).final_score.isSome = true := rfl

lemma annotateFinal_final_initial {em : ResultDict}
    (h : em.source = some "initial") :
    (annotateFinal em).final_score = some (em.score.getD 0
      + min ((em.queries.length : ℚ) * (5/100)) (15/100) + 1/10) := by
  simp [annotateFinal, h]

lemma annotateFinal_final_noninit {em : ResultDict}
    (h : em.source ≠ some "initial") :
    (annotateFinal em).final_score = some (em.reflection_score.getD 0
      + min ((em.queries.length : ℚ) * (5/100)) (15/100)) := by
  simp [annotateFinal, h]

/-- C2, corrected: an initial-sourced entry's final score is its original
score plus the 0.1 initial bonus PLUS the query bonus min(0.05·(1+k), 0.15),
k its number of follow-up occurrences — never exactly +0.10 alone; a
reflection-only entry scores max follow-up score plus min(0.05·(1+m), 0.15)
over its 1+m occurrences; the output is sorted descending by the final
score (returned in the score field) and all bookkeeping fields are
stripped. -/
theorem c2_merge_and_rank (q : String) (initial : List ResultDict)
    (rrs : List (List ResultDict)) (rqs : List String) :
    (∀ e ∈ mergeAndRankResults q initial rrs rqs,
      e.source = none ∧ e.queries = [] ∧ e.reflection_score = none ∧
        e.final_score = none) ∧
    (mergeAndRankResults q initial rrs rqs).Pairwise
      (fun a b => b.score.getD 0 ≤ a.score.getD 0) ∧
    (∀ key r0, initial.find? (fun r => kwKeyStr r == key) = some r0 →
      ∃ e ∈ mergeAndRankResults q initial rrs rqs,
        e.document_id = r0.document_id ∧ e.chunk_index = r0.chunk_index ∧
        e.score = some (r0.score.getD 0
          + min ((1 + ((occsD key (rrs.zip rqs)).length : ℚ)) * (5/100)) (15/100)
          + 1/10)) ∧
    (∀ key qy1 r1 os, initial.find? (fun r => kwKeyStr r == key) = none →
      occsD key (rrs.zip rqs) = (qy1, r1) :: os →
      ∃ e ∈ mergeAndRankResults q initial rrs rqs,
        e.document_id = r1.document_id ∧ e.chunk_index = r1.chunk_index ∧
        e.score = some
          ((os.foldl (fun c p => max c (p.2.score.getD 0)) (r1.score.getD 0))
            + min ((1 + (os.length : ℚ)) * (5/100)) (15/100))) := by
  refine ⟨?_, ?_, ?_, ?_⟩
  · intro e he
    rw [mergeAndRankResults] at he
    obtain ⟨x, _, rfl⟩ := List.mem_map.mp he
    exact ⟨rfl, rfl, rfl, rfl⟩
  · rw [mergeAndRankResults, List.pairwise_map]
    have hsorted := List.sorted_insertionSort
      (keyGe (fun x => x.final_score.getD 0))
      ((((((rrs.zip rqs).enum).foldl
        (fun acc p => p.2.1.foldl (reflStep p.1 p.2.2) acc)
        (initial.foldl (reflInitStep q) [])).map Prod.snd)).map annotateFinal)
    rw [sortDescBy]
    refine List.Pairwise.imp_of_mem ?_ hsorted
    intro a b ha hb hab
    rw [List.mem_insertionSort] at ha hb
    obtain ⟨xa, _, rfl⟩ := List.mem_map.mp ha
    obtain ⟨xb, _, rfl⟩ := List.mem_map.mp hb
    rw [stripInternal_score_of_isSome (annotateFinal_isSome xa),
      stripInternal_score_of_isSome (annotateFinal_isSome xb)]
    exact hab
  · intro key r0 hfind
    have hinv := mergeInv_acc1 q initial rrs rqs key
    rw [hfind] at hinv
    have hlk : (((rrs.zip rqs).enum).foldl
        (fun acc p => p.2.1.foldl (reflStep p.1 p.2.2) acc)
        (initial.foldl (reflInitStep q) [])).lookup key
      = some (applyOccs (occsD key (rrs.zip rqs)) (initEntry q r0)) := hinv
    refine ⟨stripInternal (annotateFinal
      (applyOccs (occsD key (rrs.zip rqs)) (initEntry q r0))),
      mem_mergeAndRank_of_lookup hlk, ?_, ?_, ?_⟩
    · rw [show ∀ x : ResultDict, (stripInternal (annotateFinal x)).document_id
          = x.document_id from fun _ => rfl]
      rw [applyOccs_document_id]
      rfl
    · rw [show ∀ x : ResultDict, (stripInternal (annotateFinal x)).chunk_index
          = x.chunk_index from fun _ => rfl]
      rw [applyOccs_chunk_index]
      rfl
    · rw [stripInternal_score_of_isSome (annotateFinal_isSome _)]
      rw [annotateFinal_final_initial
        (by rw [applyOccs_source]; rfl)]
      rw [applyOccs_score, applyOccs_queries]
      rw [show (initEntry q r0).score = r0.score from rfl,
        show (initEntry q r0).queries = [q] from rfl]
      congr 2
      rw [List.length_append, List.length_map, List.length_singleton]
      push_cast
      ring
  · intro key qy1 r1 os hfind hoccs
    have hinv := mergeInv_acc1 q initial rrs rqs key
    rw [hfind] at hinv
    have hinv2 : match occsD key (rrs.zip rqs) with
        | [] => (((rrs.zip rqs).enum).foldl
            (fun acc p => p.2.1.foldl (reflStep p.1 p.2.2) acc)
            (initial.foldl (reflInitStep q) [])).lookup key = none
        | (qy2, r2) :: os2 => ∃ i, (((rrs.zip rqs).enum).foldl
            (fun acc p => p.2.1.foldl (reflStep p.1 p.2.2) acc)
            (initial.foldl (reflInitStep q) [])).lookup key
              = some (applyOccs os2 (reflEntry i qy2 r2)) := hinv
    rw [hoccs] at hinv2
    obtain ⟨i, hlk⟩ := hinv2
    refine ⟨stripInternal (annotateFinal (applyOccs os (reflEntry i qy1 r1))),
      mem_mergeAndRank_of_lookup hlk, ?_, ?_, ?_⟩
    · rw [show ∀ x : ResultDict, (stripInternal (annotateFinal x)).document_id
          = x.document_id from fun _ => rfl]
      rw [applyOccs_document_id]
      rfl
    · rw [show ∀ x : ResultDict, (stripInternal (annotateFinal x)).chunk_index
          = x.chunk_index from fun _ => rfl]
      rw [applyOccs_chunk_index]
      rfl
    · rw [stripInternal_score_of_isSome (annotateFinal_isSome _)]
      rw [annotateFinal_final_noninit
        (by rw [applyOccs_source]
            rw [show (reflEntry i qy1 r1).source = some (reflTag i) from rfl]
            simp [reflTag_ne_initial i])]
      rw [applyOccs_reflection_of_some os (reflEntry i qy1 r1)
        (r1.score.getD 0) rfl]
      rw [applyOccs_queries]
      rw [show (reflEntry i qy1 r1).queries = [qy1] from rfl]
      rw [Option.getD_some]
      congr 2
      rw [List.length_append, List.length_map, List.length_singleton]
      push_cast
      ring

/-- The single initial result of the C2 counterexample. -/
def r0C2 : ResultDict :=
  { document_id := some (.str "d1"), chunk_index := some (.int 0),
    score := some (1/2) }

/-- C2 fails as stated: with one initial result of score 0.5 and no
reflection results at all, the returned score is 0.5 + 0.05 + 0.1 = 0.65,
not the claimed original score plus exactly the 0.10 bonus (0.6): the query
bonus min(len(queries)·0.05, 0.15) also applies to initial entries, whose
queries list always holds at least the original query. -/
theorem c2_counterexample :
    (mergeAndRankResults "q" [r0C2] [] []).map (fun r => r.score)
      = [some (13/20)] ∧ (13/20 : ℚ) ≠ 1/2 + 1/10 := by
  constructor
  · show [(stripInternal (annotateFinal (initEntry "q" r0C2))).score] = _
    rw [stripInternal_score_of_isSome (annotateFinal_isSome _)]
    rw [annotateFinal_final_initial rfl]
    rw [show (initEntry "q" r0C2).score = some (1/2) from rfl,
      show (initEntry "q" r0C2).queries = ["q"] from rfl]
    norm_num [min_def]
  · norm_num

/-- Witness: the corrected formula instantiated on the counterexample
input: the lone initial entry keeps score 0.5 + min(0.05·1, 0.15) + 0.1. -/
theorem c2_witness :
    ([r0C2].find? (fun r => kwKeyStr r == "d1:0") = some r0C2) ∧
    ∃ e ∈ mergeAndRankResults "q" [r0C2] [] [],
      e.document_id = r0C2.document_id ∧ e.chunk_index = r0C2.chunk_index ∧
      e.score = some (r0C2.score.getD 0
        + min ((1 + ((occsD "d1:0" (List.zip [] [])).length : ℚ)) * (5/100))
            (15/100) + 1/10) :=
  ⟨rfl, (c2_merge_and_rank "q" [r0C2] [] []).2.2.1 "d1:0" r0C2 rfl⟩

end RagSpec
